import Mathlib

/-!
Arweave upload scripts: image scanner, optimizer naming and metadata reconciler.

A shallow embedding of `scripts/optimize.js`, `scripts/estimate.js` and
`scripts/update-metadata.js`.

Conventions of the embedding.

* A JavaScript string is a `List Char` (`Str`).  None of the operations modelled
  here looks inside a character other than to compare it with `.` or `/` or to
  lowercase it.
* `String.prototype.toLowerCase` is modelled on the ASCII letters.  No character
  outside `A`-`Z` lowercases to one of the letters of `SUPPORTED_FORMATS`, so
  membership of a lowercased extension in that list is not affected.
* `path.extname` is the POSIX algorithm of Node's `path` module, transcribed loop
  for loop.  `path.join` and `path.basename` are taken as parameters (`PathLib`).
* `JSON.parse` and `JSON.stringify` are taken as parameters (`JSONLib`); the
  values they exchange are modelled by `JsVal`.
* A Number is `NaN`, an infinity or a finite double held as an exact fraction
  (`JsNum`); `/`, `-`, `*` and `parseInt` round to the nearest double, ties to even
  (`roundToDouble`), and `toFixed` follows ECMA-262.  The external quote `winc` is
  taken as the decimal digits of a natural number.
* Byte sizes are natural numbers below `2 ^ 53`, hence exact doubles.
-/

namespace ArweaveScripts

/-- A JavaScript string. -/
abbrev Str := List Char

/-! ## Strings -/

/-- The method `String.prototype.toLowerCase`, on ASCII letters. -/
def toLowerCase (s : Str) : Str := s.map Char.toLower

/-- The method `String.prototype.slice(start, end)` for `0 ≤ start`, `0 ≤ end`. -/
def slice (s : Str) (start stop : Nat) : Str := (s.take stop).drop start

/-- The call `s.replace(pattern, replacement)` with a string pattern: the first
occurrence of `pattern` in `s`, scanning from the left, is replaced; when there is
none `s` is returned unchanged. -/
def replaceFirst : Str → Str → Str → Str
  | [], pattern, replacement => if pattern = [] then replacement else []
  | c :: t, pattern, replacement =>
    if pattern.isPrefixOf (c :: t) then replacement ++ (c :: t).drop pattern.length
    else c :: replaceFirst t pattern replacement

/-! ## `path.extname` (POSIX) -/

/-- The local variables of the loop of `path.extname`. -/
structure ExtState where
  startDot : Int
  startPart : Int
  stop : Int
  matchedSlash : Bool
  preDotState : Int
  deriving DecidableEq, Repr

/-- The values of the variables before the loop. -/
def ExtState.init : ExtState :=
  { startDot := -1, startPart := 0, stop := -1, matchedSlash := true, preDotState := 0 }

/-- The loop `for (let i = path.length - 1; i >= 0; --i)` of `path.extname`.  The
argument is the part of the path not yet visited, reversed, so that its head is
the character at index `i` and `i` is the length of its tail. -/
def extnameLoop : List Char → ExtState → ExtState
  | [], st => st
  | code :: rest, st =>
    let i : Int := rest.length
    if code = '/' then
      if !st.matchedSlash then
        { st with startPart := i + 1 }
      else extnameLoop rest st
    else
      let st1 : ExtState :=
        if st.stop = -1 then { st with matchedSlash := false, stop := i + 1 } else st
      let st2 : ExtState :=
        if code = '.' then
          if st1.startDot = -1 then { st1 with startDot := i }
          else if st1.preDotState ≠ 1 then { st1 with preDotState := 1 }
          else st1
        else if st1.startDot ≠ -1 then { st1 with preDotState := -1 }
        else st1
      extnameLoop rest st2

/-- The function `path.extname`. -/
def extname (path : Str) : Str :=
  let st := extnameLoop path.reverse ExtState.init
  if st.startDot = -1 ∨ st.stop = -1 ∨ st.preDotState = 0 ∨
      (st.preDotState = 1 ∧ st.startDot = st.stop - 1 ∧ st.startDot = st.startPart + 1) then
    []
  else slice path st.startDot.toNat st.stop.toNat

/-- The value of `preDotState` after the characters `r` have been visited, head
first, once the first dot and the end of the extension are known. -/
def preDotAfter : List Char → Int → Int
  | [], d => d
  | c :: rest, _ => preDotAfter rest (if c = '.' then 1 else -1)

/-! ## Scanner -/

/-- The constant `SUPPORTED_FORMATS`. -/
def SUPPORTED_FORMATS : List Str :=
  [".jpg".toList, ".jpeg".toList, ".png".toList, ".webp".toList, ".gif".toList, ".bmp".toList]

/-- The filter predicate of `getImageFiles`:
`SUPPORTED_FORMATS.includes(extname(file).toLowerCase())`. -/
def isSupported (file : Str) : Bool :=
  decide (toLowerCase (extname file) ∈ SUPPORTED_FORMATS)

/-- The functions of Node's `path` module that the scripts use beside `extname`. -/
structure PathLib where
  join : Str → Str → Str
  basename : Str → Str

/-- The functions `path.join(directory, file)` and `path.basename(path)` on the
paths of directory entries: a directory name that is already normalised (no `.` or
`..` segment, no repeated or trailing `/`) and an entry name without `/`. -/
def entryPaths : PathLib where
  join := fun directory file => directory ++ '/' :: file
  basename := fun path => (path.reverse.takeWhile (fun c => c ≠ '/')).reverse

/-- The function `getImageFiles` (the same in `estimate.js` and `optimize.js`).
`readdir` is the result of `readdirSync(directory)`: `none` when it throws. -/
def getImageFiles (lib : PathLib) (readdir : Str → Option (List Str)) (directory : Str) :
    List Str :=
  match readdir directory with
  | some files => (files.filter isSupported).map (fun file => lib.join directory file)
  | none => []

/-- The character `x` is `y`, or `y` is a lowercase ASCII letter and `x` is the
capital of that letter (32 code points below). -/
def sameLetter (x y : Char) : Bool :=
  decide (x = y) ||
    (decide (97 ≤ y.toNat) && decide (y.toNat ≤ 122) && decide (x.toNat + 32 = y.toNat))

/-- The text `s` is `t` up to the case of ASCII letters, `t` being in lowercase. -/
def caseVariant : Str → Str → Bool
  | [], [] => true
  | x :: xs, y :: ys => sameLetter x y && caseVariant xs ys
  | _, _ => false

/-- The name of a directory entry other than `.` and `..`: not empty and without
`/`. -/
def EntryName (n : Str) : Prop :=
  n ≠ [] ∧ '/' ∉ n ∧ n ≠ ['.'] ∧ n ≠ ['.', '.']

/-- The function `path.join` keeps the entries of one directory apart: two distinct
entry names joined to `directory` give distinct paths. -/
def JoinSeparatesEntries (lib : PathLib) (directory : Str) : Prop :=
  ∀ a b, EntryName a → EntryName b → lib.join directory a = lib.join directory b → a = b

/-! ## Reconciler join key -/

/-- Whether `/\.[^.]+$/` matches with the match starting at the head of `s`: a
`.`, then the greedy run `[^.]+`, then the end of input.  A shorter run cannot
reach the end of input, so backtracking adds no match. -/
def extRegexMatchesAt (s : Str) : Bool :=
  match s with
  | [] => false
  | c :: rest =>
    let run := rest.takeWhile (fun x => x ≠ '.')
    c = '.' && !run.isEmpty && (rest.drop run.length).isEmpty

/-- The expression `fileName.replace(/\.[^.]+$/, "")`: start positions are tried
from the left; the first match, which runs to the end of input, is removed. -/
def stripExt : Str → Str
  | [] => []
  | c :: t => if extRegexMatchesAt (c :: t) then [] else c :: stripExt t

/-! ## Optimizer naming -/

/-- The expression `` `${fileName.replace(extname(fileName), "")}.jpg` ``. -/
def outputFileName (fileName : Str) : Str :=
  replaceFirst fileName (extname fileName) [] ++ ".jpg".toList

/-- The extension text occurs in the name only as its suffix: at every index at
which `extname(n)` starts inside `n`, it also ends `n`. -/
def extensionOnlyFinal (n : Str) : Bool :=
  (List.range (n.length + 1)).all fun i =>
    !(List.isPrefixOf (extname n) (n.drop i)) || decide (i + (extname n).length = n.length)

/-- The constant `outputPath` of the loop body of `optimizeAllImages`. -/
def outputPath (lib : PathLib) (outputDir imagePath : Str) : Str :=
  lib.join outputDir (outputFileName (lib.basename imagePath))

/-! ## Optimizer loop -/

/-- What happens to one image inside the `try` block of the loop body of
`optimizeAllImages`. -/
inductive Outcome where
  /-- The call `statSync(imagePath)` throws. -/
  | statThrows
  /-- The call `optimizeImage(imagePath)` returns `null` (the transform threw and the
  error was caught inside `optimizeImage`). -/
  | noData (originalSize : Nat)
  /-- The transform returns a buffer and `writeFileSync` throws. -/
  | writeThrows (originalSize optimizedSize : Nat)
  /-- The transform returns a buffer and it is written. -/
  | written (originalSize optimizedSize : Nat)
  deriving DecidableEq, Repr

/-- The variables of `optimizeAllImages` that the loop updates, with the file
names printed at the head of each iteration and the files written. -/
structure OptState where
  successCount : Nat
  failCount : Nat
  totalOriginalSize : Nat
  totalOptimizedSize : Nat
  visited : List Str
  writes : List (Str × Nat)
  deriving DecidableEq, Repr

/-- The values of the variables before the loop. -/
def OptState.init : OptState :=
  { successCount := 0, failCount := 0, totalOriginalSize := 0, totalOptimizedSize := 0,
    visited := [], writes := [] }

/-- One iteration of the loop of `optimizeAllImages`. -/
def optimizeStep (lib : PathLib) (outputDir : Str) (st : OptState)
    (item : Str × Outcome) : OptState :=
  let imagePath := item.1
  let fileName := lib.basename imagePath
  let st1 := { st with visited := st.visited ++ [fileName] }
  match item.2 with
  | Outcome.statThrows => { st1 with failCount := st1.failCount + 1 }
  | Outcome.noData _ => { st1 with failCount := st1.failCount + 1 }
  | Outcome.writeThrows _ _ => { st1 with failCount := st1.failCount + 1 }
  | Outcome.written originalSize optimizedSize =>
    { st1 with
      writes := st1.writes ++ [(outputPath lib outputDir imagePath, optimizedSize)]
      totalOriginalSize := st1.totalOriginalSize + originalSize
      totalOptimizedSize := st1.totalOptimizedSize + optimizedSize
      successCount := st1.successCount + 1 }

/-- The loop `for (let i = 0; i < imageFiles.length; i++)` of `optimizeAllImages`. -/
def optimizeLoop (lib : PathLib) (outputDir : Str) (items : List (Str × Outcome))
    (st : OptState) : OptState :=
  items.foldl (optimizeStep lib outputDir) st

/-- The function `optimizeAllImages` from the scan onwards: `none` is the exit taken
when no image is found, otherwise the state with which the summary is printed. -/
def optimizeAllImages (lib : PathLib) (outputDir : Str) (items : List (Str × Outcome)) :
    Option OptState :=
  if items.length = 0 then none
  else some (optimizeLoop lib outputDir items OptState.init)

/-- Whether an outcome is counted as a success. -/
def Outcome.succeeded : Outcome → Bool
  | Outcome.written _ _ => true
  | _ => false

/-- The original size recorded for an outcome that is counted as a success. -/
def Outcome.originalBytes : Outcome → Nat
  | Outcome.written originalSize _ => originalSize
  | _ => 0

/-- The optimized size recorded for an outcome that is counted as a success. -/
def Outcome.optimizedBytes : Outcome → Nat
  | Outcome.written _ optimizedSize => optimizedSize
  | _ => 0

/-! ## Numbers -/

/-- The number of halvings that bring `n` below 2, by recursion on `fuel`. -/
def log2Fuel : Nat → Nat → Nat
  | 0, _ => 0
  | fuel + 1, n => if n < 2 then 0 else log2Fuel fuel (n / 2) + 1

/-- The integer part of the binary logarithm of a positive `n`. -/
def binaryLog (n : Nat) : Nat := log2Fuel n n

/-- A JavaScript Number: `NaN`, an infinity, or a finite double, held as its sign
and its value `num / den` (a double is a fraction whose denominator is a power of
2; `fin true 0 1` is `-0`). -/
inductive JsNum where
  | nan
  | inf (neg : Bool)
  | fin (neg : Bool) (num den : Nat)
  deriving DecidableEq, Repr

/-- The integer nearest to `p / q`, the even one of the two on a tie. -/
def roundHalfEven (p q : Nat) : Nat :=
  if 2 * (p % q) < q then p / q
  else if q < 2 * (p % q) then p / q + 1
  else if (p / q) % 2 = 0 then p / q
  else p / q + 1

/-- The integer part of the binary logarithm of the positive fraction `a / b`. -/
def floorLog2 (a b : Nat) : Int :=
  let l0 : Int := (binaryLog a : Int) - (binaryLog b : Int)
  if a * 2 ^ (-l0).toNat < b * 2 ^ l0.toNat then l0 - 1 else l0

/-- The bound `2 ^ 1024`: a rounded magnitude that reaches it is an infinity. -/
def doubleLimit : Nat := 2 ^ 256 * 2 ^ 256 * 2 ^ 256 * 2 ^ 256

/-- The double nearest to the fraction `a / b` (`b` positive), ties to the even
significand, with the sign `neg`: IEEE 754 binary64 round-to-nearest-even.  The
significand has 53 bits unless the exponent reaches the subnormal floor `-1074`. -/
def roundToDouble (neg : Bool) (a b : Nat) : JsNum :=
  if a = 0 then JsNum.fin neg 0 1
  else
    let e : Int := max (floorLog2 a b - 52) (-1074)
    let m := roundHalfEven (a * 2 ^ (-e).toNat) (b * 2 ^ e.toNat)
    if doubleLimit * 2 ^ (-e).toNat ≤ m * 2 ^ e.toNat then JsNum.inf neg
    else JsNum.fin neg (m * 2 ^ e.toNat) (2 ^ (-e).toNat)

/-- The operator `/` on Numbers. -/
def jsDiv : JsNum → JsNum → JsNum
  | JsNum.nan, _ => JsNum.nan
  | _, JsNum.nan => JsNum.nan
  | JsNum.inf _, JsNum.inf _ => JsNum.nan
  | JsNum.inf n1, JsNum.fin n2 _ _ => JsNum.inf (xor n1 n2)
  | JsNum.fin n1 _ _, JsNum.inf n2 => JsNum.fin (xor n1 n2) 0 1
  | JsNum.fin n1 a b, JsNum.fin n2 c d =>
    if c = 0 then (if a = 0 then JsNum.nan else JsNum.inf (xor n1 n2))
    else roundToDouble (xor n1 n2) (a * d) (b * c)

/-- The operator `*` on Numbers. -/
def jsMul : JsNum → JsNum → JsNum
  | JsNum.nan, _ => JsNum.nan
  | _, JsNum.nan => JsNum.nan
  | JsNum.inf n1, JsNum.inf n2 => JsNum.inf (xor n1 n2)
  | JsNum.inf n1, JsNum.fin n2 c _ => if c = 0 then JsNum.nan else JsNum.inf (xor n1 n2)
  | JsNum.fin n1 a _, JsNum.inf n2 => if a = 0 then JsNum.nan else JsNum.inf (xor n1 n2)
  | JsNum.fin n1 a b, JsNum.fin n2 c d => roundToDouble (xor n1 n2) (a * c) (b * d)

/-- A numerator with its sign. -/
def signedNum (neg : Bool) (n : Nat) : Int := if neg then -(n : Int) else (n : Int)

/-- The operator `-` on Numbers. -/
def jsSub : JsNum → JsNum → JsNum
  | JsNum.nan, _ => JsNum.nan
  | _, JsNum.nan => JsNum.nan
  | JsNum.inf n1, JsNum.inf n2 => if n1 = n2 then JsNum.nan else JsNum.inf n1
  | JsNum.inf n1, JsNum.fin _ _ _ => JsNum.inf n1
  | JsNum.fin _ _ _, JsNum.inf n2 => JsNum.inf (!n2)
  | JsNum.fin n1 a b, JsNum.fin n2 c d =>
    let diff : Int := signedNum n1 (a * d) - signedNum n2 (c * b)
    if diff = 0 then JsNum.fin (n1 && !n2) 0 1
    else roundToDouble (decide (diff < 0)) diff.natAbs (b * d)

/-- The decimal text of `n / 10 ^ digits` with exactly `digits` decimals: the digits
of `n`, padded with zeros on the left to `digits + 1` digits, with a point before the
last `digits` digits. -/
def renderFixed (digits n : Nat) : Str :=
  let m := Nat.toDigits 10 n
  let padded := List.replicate (digits + 1 - m.length) '0' ++ m
  if digits = 0 then padded
  else padded.take (padded.length - digits) ++ '.' :: padded.drop (padded.length - digits)

/-- The method `Number.prototype.toFixed(digits)`: of a finite `x` below `10 ^ 21` it
renders the integer `n` for which `n / 10 ^ digits - |x|` is nearest to zero, the
larger one of two, after a `-` when `x < 0`.  `none` stands for the exponential
notation used from `10 ^ 21` on, which is not modelled. -/
def toFixed (digits : Nat) : JsNum → Option Str
  | JsNum.nan => some "NaN".toList
  | JsNum.inf false => some "Infinity".toList
  | JsNum.inf true => some "-Infinity".toList
  | JsNum.fin neg num den =>
    if 10 ^ 21 * den ≤ num then none
    else
      some ((if neg && decide (0 < num) then ['-'] else [])
        ++ renderFixed digits ((2 * num * 10 ^ digits + den) / (2 * den)))

/-- An integral Number below `2 ^ 53`, such as a literal, a file size from
`statSync` or the length of a buffer: these are exact doubles. -/
def jsInt (n : Nat) : JsNum := JsNum.fin false n 1

/-- The expression `(1 - optimizedSize / originalSize) * 100` of `optimize.js` (per
file and in the summary) and of `estimate.js` (per set). -/
def savingsPercent (optimizedSize originalSize : Nat) : JsNum :=
  jsMul (jsSub (jsInt 1) (jsDiv (jsInt optimizedSize) (jsInt originalSize))) (jsInt 100)

/-- The reported text `((1 - optimizedSize / originalSize) * 100).toFixed(2)`. -/
def reportedSavings (optimizedSize originalSize : Nat) : Option Str :=
  toFixed 2 (savingsPercent optimizedSize originalSize)

/-- The call `parseInt(winc)` on the decimal digits of `w`: the double nearest to
`w`. -/
def jsParseInt (w : Nat) : JsNum := roundToDouble false w 1
/-- The expression `parseInt(winc) / 1e12` of `estimate.js`. -/
def creditsOf (w : Nat) : JsNum := jsDiv (jsParseInt w) (jsInt (10 ^ 12))
/-- The rendered credit amount `(parseInt(winc) / 1e12).toFixed(6)`. -/
def renderedCredits (w : Nat) : Option Str := toFixed 6 (creditsOf w)

/-- The comparison `x <= y` on Numbers; it is false when either is `NaN`. -/
def jsLe : JsNum → JsNum → Bool
  | JsNum.nan, _ => false
  | _, JsNum.nan => false
  | JsNum.inf n1, JsNum.inf n2 => n1 || !n2
  | JsNum.inf n1, JsNum.fin _ _ _ => n1
  | JsNum.fin _ _ _, JsNum.inf n2 => !n2
  | JsNum.fin n1 a b, JsNum.fin n2 c d => decide (signedNum n1 (a * d) ≤ signedNum n2 (c * b))



/-! ## JSON values -/

/-- A value returned by `JSON.parse`, or such a value after an assignment to its
`image` property.  An array carries its own non-index properties in `extra`;
`JSON.parse` returns arrays whose `extra` is empty.  A number is kept as the bit
pattern of its double; the script never inspects one. -/
inductive JsVal where
  | null
  | bool (b : Bool)
  | num (bits : Nat)
  | str (s : Str)
  | arr (elems : List JsVal) (extra : List (Str × JsVal))
  | obj (props : List (Str × JsVal))

/-- The built-in `JSON` object: `parse` is `none` when `JSON.parse` throws;
`stringify v` is `JSON.stringify(v, null, 2)`. -/
structure JSONLib where
  parse : Str → Option JsVal
  stringify : JsVal → Str

/-- The property name `image`. -/
def imageKey : Str := "image".toList

/-- Own property lookup in an ordered property list. -/
def getProp : List (Str × JsVal) → Str → Option JsVal
  | [], _ => none
  | (k, v) :: t, key => if k = key then some v else getProp t key

/-- Own property assignment in an ordered property list: an existing property
keeps its place, a new one goes last. -/
def setProp : List (Str × JsVal) → Str → JsVal → List (Str × JsVal)
  | [], key, val => [(key, val)]
  | (k, v) :: t, key, val => if k = key then (k, val) :: t else (k, v) :: setProp t key val

/-- The expression `metadata.image`: the outer `none` is the `TypeError` thrown on
`null`, the inner `none` is `undefined`. -/
def getImage : JsVal → Option (Option JsVal)
  | JsVal.null => none
  | JsVal.bool _ => some none
  | JsVal.num _ => some none
  | JsVal.str _ => some none
  | JsVal.arr _ extra => some (getProp extra imageKey)
  | JsVal.obj props => some (getProp props imageKey)

/-- The comparison `metadata.image === arweaveUrl` for a string `arweaveUrl`. -/
def strictEqualsUrl : Option JsVal → Str → Bool
  | some (JsVal.str s), arweaveUrl => decide (s = arweaveUrl)
  | _, _ => false

/-- The assignment `metadata.image = arweaveUrl` in module (strict mode) code: `none`
is the `TypeError` thrown when `metadata` is a primitive. -/
def setImage : JsVal → Str → Option JsVal
  | JsVal.obj props, arweaveUrl => some (JsVal.obj (setProp props imageKey (JsVal.str arweaveUrl)))
  | JsVal.arr elems extra, arweaveUrl =>
    some (JsVal.arr elems (setProp extra imageKey (JsVal.str arweaveUrl)))
  | _, _ => none

/-! ## Reconciler -/

/-- The two properties that the loop over `files` reads from each upload record. -/
structure UploadRecord where
  fileName : Str
  url : Str
  deriving DecidableEq, Repr

/-- The parsed results file: each field is `none` when the property is falsy. -/
structure Results where
  files : Option (List UploadRecord)
  images : Option (List UploadRecord)

/-- The expression `results.files || results.images`. -/
def selectFiles (results : Results) : Option (List UploadRecord) :=
  match results.files with
  | some files => some files
  | none => results.images

/-- A JavaScript `Map` from strings to strings, in insertion order. -/
abbrev UrlMap := List (Str × Str)

/-- The method `Map.prototype.set`. -/
def mapSet : UrlMap → Str → Str → UrlMap
  | [], key, val => [(key, val)]
  | (k, v) :: t, key, val => if k = key then (k, val) :: t else (k, v) :: mapSet t key val

/-- The method `Map.prototype.get`; `none` is `undefined`. -/
def mapGet : UrlMap → Str → Option Str
  | [], _ => none
  | (k, v) :: t, key => if k = key then some v else mapGet t key

/-- The loop `for (const { fileName, url } of files)` that fills `urlMap`. -/
def buildUrlMap (files : List UploadRecord) : UrlMap :=
  files.foldl (fun urlMap r => mapSet urlMap (stripExt r.fileName) r.url) []

/-- The test `!arweaveUrl` negated: the lookup found a non-empty string. -/
def truthyUrl : Option Str → Option Str
  | some (c :: t) => some (c :: t)
  | _ => none

/-- The metadata directory: `listing` is `readdirSync(metadataDir)` (`none` when it
throws), `content file` is `readFileSync(resolve(metadataDir, file), "utf8")` (`none`
when it throws), `writable file` tells whether `writeFileSync` on it succeeds. -/
structure MetaDir where
  listing : Option (List Str)
  content : Str → Option Str
  writable : Str → Bool

/-- The effect of `writeFileSync(filePath, data, "utf8")` on an existing entry. -/
def MetaDir.write (dir : MetaDir) (file data : Str) : MetaDir :=
  { dir with content := fun f => if f = file then some data else dir.content f }

/-- A line printed by the loop over the metadata files. -/
inductive LogLine where
  | skip (file : Str)
  | upToDate (file : Str)
  | updated (file : Str)
  deriving DecidableEq, Repr

/-- The directory with the counters and the lines printed so far. -/
structure Run where
  dir : MetaDir
  updated : Nat
  skipped : Nat
  log : List LogLine

/-- One iteration of the loop `for (const file of metadataFiles)`.  `Except.error`
carries the state in which an exception left the loop. -/
def reconcileFile (lib : JSONLib) (urlMap : UrlMap) (st : Run) (file : Str) :
    Except Run Run :=
  match truthyUrl (mapGet urlMap file) with
  | none => Except.ok { st with skipped := st.skipped + 1, log := st.log ++ [LogLine.skip file] }
  | some arweaveUrl =>
    match st.dir.content file with
    | none => Except.error st
    | some text =>
      match lib.parse text with
      | none => Except.error st
      | some metadata =>
        match getImage metadata with
        | none => Except.error st
        | some image =>
          if strictEqualsUrl image arweaveUrl then
            Except.ok { st with log := st.log ++ [LogLine.upToDate file] }
          else
            match setImage metadata arweaveUrl with
            | none => Except.error st
            | some metadata1 =>
              if st.dir.writable file then
                Except.ok
                  { st with
                    dir := st.dir.write file (lib.stringify metadata1)
                    log := st.log ++ [LogLine.updated file]
                    updated := st.updated + 1 }
              else Except.error st

/-- The loop `for (const file of metadataFiles)`. -/
def reconcileLoop (lib : JSONLib) (urlMap : UrlMap) : List Str → Run → Except Run Run
  | [], st => Except.ok st
  | file :: rest, st =>
    match reconcileFile lib urlMap st file with
    | Except.error e => Except.error e
    | Except.ok st1 => reconcileLoop lib urlMap rest st1

/-- The body of the `try` block of `update-metadata.js` after the results file has
been parsed: `Except.ok` is the state with which the final line is printed,
`Except.error` the state in which the script exits with status 1. -/
def reconcile (lib : JSONLib) (results : Results) (dir : MetaDir) : Except Run Run :=
  let start : Run := { dir := dir, updated := 0, skipped := 0, log := [] }
  match selectFiles results with
  | none => Except.error start
  | some files =>
    let urlMap := buildUrlMap files
    match dir.listing with
    | none => Except.error start
    | some metadataFiles => reconcileLoop lib urlMap metadataFiles start

/-- A results file that has a `files` array. -/
def Results.ofFiles (files : List UploadRecord) : Results :=
  { files := some files, images := none }

/-- The state in which a run ended, whether it completed or not. -/
def finalRun : Except Run Run → Run
  | Except.ok r => r
  | Except.error r => r

/-- Whether a run completed (reached the final `Done.` line). -/
def completed : Except Run Run → Bool
  | Except.ok _ => true
  | Except.error _ => false

/-- The URL that the loop over the metadata files uses for an entry: the value of
`urlMap.get(file)` when it is truthy. -/
def lookupUrl (files : List UploadRecord) (file : Str) : Option Str :=
  truthyUrl (mapGet (buildUrlMap files) file)

/-- The line that a second run prints for an entry that is up to date or has no URL. -/
def settledLine (urlMap : UrlMap) (file : Str) : LogLine :=
  match truthyUrl (mapGet urlMap file) with
  | none => LogLine.skip file
  | some _ => LogLine.upToDate file

/-! ## A small instance of `JSON` -/

/-- The text of `JSON.stringify(\x7bimage: s\x7d, null, 2)` before `s`. -/
def imagePrefix : Str := "\x7b\n  \"image\": \"".toList

/-- The text of `JSON.stringify(\x7bimage: s\x7d, null, 2)` after `s`. -/
def imageSuffix : Str := "\"\n\x7d".toList

/-- The `JSON` object restricted to two kinds of document: the empty array `[]` and
the object with the single property `image` holding a string without characters to
escape.  On these it agrees with `JSON.parse` and `JSON.stringify(·, null, 2)`:
own non-index properties of an array are not serialised.  Every other text is
rejected by `parse`; of an object `stringify` writes the `image` string only. -/
def miniJSON : JSONLib where
  parse := fun text =>
    if text = "[]".toList then some (JsVal.arr [] [])
    else if List.isPrefixOf imagePrefix text && List.isSuffixOf imageSuffix text
        && decide (imagePrefix.length + imageSuffix.length ≤ text.length) then
      some (JsVal.obj [(imageKey, JsVal.str
        ((text.drop imagePrefix.length).take
          (text.length - imagePrefix.length - imageSuffix.length)))])
    else none
  stringify := fun v =>
    match v with
    | JsVal.arr _ _ => "[]".toList
    | JsVal.obj props =>
      match getProp props imageKey with
      | some (JsVal.str s) => imagePrefix ++ s ++ imageSuffix
      | _ => "\x7b\x7d".toList
    | _ => "null".toList

/-- The contract of `JSON` that the Reconciler relies on: an object whose `image`
property has just been set to a string reads back, after `stringify` and `parse`,
as an object whose `image` property is that string. -/
def RoundTripsImage (lib : JSONLib) : Prop :=
  ∀ (o : List (Str × JsVal)) (u : Str),
    ∃ o1, lib.parse (lib.stringify (JsVal.obj (setProp o imageKey (JsVal.str u))))
        = some (JsVal.obj o1) ∧
      getProp o1 imageKey = some (JsVal.str u)

/-- A metadata directory with the given entries (name, content), all writable. -/
def MetaDir.ofEntries (entries : List (Str × Str)) : MetaDir where
  listing := some (entries.map Prod.fst)
  content := fun f => (entries.find? (fun e => decide (e.1 = f))).map Prod.snd
  writable := fun _ => true

/-- An entry on which an iteration of the loop writes nothing: it has no URL, or
its content parses to a value whose `image` is already its URL. -/
def Settled (lib : JSONLib) (urlMap : UrlMap) (dir : MetaDir) (file : Str) : Prop :=
  truthyUrl (mapGet urlMap file) = none ∨
  ∃ u c v img, truthyUrl (mapGet urlMap file) = some u ∧ dir.content file = some c ∧
    lib.parse c = some v ∧ getImage v = some img ∧ strictEqualsUrl img u = true

/-- An entry with a URL does not hold a JSON array. -/
def HoldsNoArray (lib : JSONLib) (urlMap : UrlMap) (dir : MetaDir) (file : Str) : Prop :=
  ∀ u c e x, truthyUrl (mapGet urlMap file) = some u → dir.content file = some c →
    lib.parse c ≠ some (JsVal.arr e x)

/-- Whether a file content parses to a value whose `image` property is strictly
equal to the given URL. -/
def imageIsUrl (lib : JSONLib) (content : Option Str) (arweaveUrl : Str) : Bool :=
  match content with
  | none => false
  | some text =>
    match lib.parse text with
    | none => false
    | some metadata =>
      match getImage metadata with
      | none => false
      | some image => strictEqualsUrl image arweaveUrl

/-! ## Lemmas on the join key -/

theorem drop_takeWhile_isEmpty (rest : Str) :
    (rest.drop (rest.takeWhile (fun x => x ≠ '.')).length).isEmpty = true ↔ '.' ∉ rest := by
  induction rest with
  | nil => simp
  | cons a r ih =>
    by_cases h : a = '.'
    · subst h
      simp [List.takeWhile]
    · have h1 : ¬ ('.' = a) := fun e => h e.symm
      have hp : List.takeWhile (fun x => decide (x ≠ '.')) (a :: r)
          = a :: List.takeWhile (fun x => decide (x ≠ '.')) r := by
        simp [List.takeWhile, h]
      rw [hp, List.length_cons, List.drop_succ_cons, ih]
      simp [h1]

theorem extRegexMatchesAt_iff (c : Char) (rest : Str) :
    extRegexMatchesAt (c :: rest) = true ↔ c = '.' ∧ rest ≠ [] ∧ '.' ∉ rest := by
  unfold extRegexMatchesAt
  simp only [Bool.and_eq_true, decide_eq_true_eq, Bool.not_eq_true']
  constructor
  · rintro ⟨⟨h1, h2⟩, h3⟩
    have h4 := (drop_takeWhile_isEmpty rest).1 h3
    refine ⟨h1, ?_, h4⟩
    intro h5
    subst h5
    simp at h2
  · rintro ⟨h1, h2, h3⟩
    refine ⟨⟨h1, ?_⟩, (drop_takeWhile_isEmpty rest).2 h3⟩
    cases rest with
    | nil => exact absurd rfl h2
    | cons a r =>
      have h4 : ¬ (a = '.') := fun e => h3 (by simp [e])
      simp [List.takeWhile, h4]

theorem stripExt_append_ext (p e : Str) (he : e ≠ []) (hdot : '.' ∉ e) :
    stripExt (p ++ '.' :: e) = p := by
  induction p with
  | nil =>
    have h : extRegexMatchesAt ('.' :: e) = true := (extRegexMatchesAt_iff _ _).2 ⟨rfl, he, hdot⟩
    simp [stripExt, h]
  | cons c t ih =>
    have h : extRegexMatchesAt (c :: (t ++ '.' :: e)) = false := by
      cases hm : extRegexMatchesAt (c :: (t ++ '.' :: e)) with
      | false => rfl
      | true =>
        have h2 := ((extRegexMatchesAt_iff _ _).1 hm).2.2
        exact absurd (by simp) h2
    simp [stripExt, h, ih]

theorem stripExt_no_dot (n : Str) (h : '.' ∉ n) : stripExt n = n := by
  induction n with
  | nil => rfl
  | cons c t ih =>
    have hc : ¬ (c = '.') := fun e => h (by simp [e])
    have ht : '.' ∉ t := fun e => h (List.mem_cons_of_mem _ e)
    have hm : extRegexMatchesAt (c :: t) = false := by
      cases hm : extRegexMatchesAt (c :: t) with
      | false => rfl
      | true => exact absurd ((extRegexMatchesAt_iff _ _).1 hm).1 hc
    simp [stripExt, hm, ih ht]

theorem stripExt_trailing_dot (q : Str) : stripExt (q ++ ['.']) = q ++ ['.'] := by
  induction q with
  | nil =>
    have hm : extRegexMatchesAt ['.'] = false := by decide
    simp [stripExt, hm]
  | cons c t ih =>
    have hm : extRegexMatchesAt (c :: (t ++ ['.'])) = false := by
      cases hm : extRegexMatchesAt (c :: (t ++ ['.'])) with
      | false => rfl
      | true =>
        have h2 := ((extRegexMatchesAt_iff _ _).1 hm).2.2
        exact absurd (by simp) h2
    simp [stripExt, hm, ih]

theorem stripExt_ends_in_dot (n : Str) (h : n.getLast? = some '.') : stripExt n = n := by
  obtain ⟨q, rfl⟩ : ∃ q, n = q ++ ['.'] := by
    rcases List.eq_nil_or_concat n with h0 | ⟨q, a, h1⟩
    · subst h0
      simp at h
    · subst h1
      simp at h
      exact ⟨q, by simp [h]⟩
  exact stripExt_trailing_dot q

theorem mapGet_mapSet_self (m : UrlMap) (k v : Str) : mapGet (mapSet m k v) k = some v := by
  induction m with
  | nil => simp [mapSet, mapGet]
  | cons a t ih =>
    obtain ⟨k1, v1⟩ := a
    by_cases h : k1 = k
    · simp [mapSet, mapGet, h]
    · simp [mapSet, mapGet, h, ih]

theorem mapGet_mapSet_other (m : UrlMap) (k v k2 : Str) (h : k ≠ k2) :
    mapGet (mapSet m k v) k2 = mapGet m k2 := by
  induction m with
  | nil => simp [mapSet, mapGet, h]
  | cons a t ih =>
    obtain ⟨k1, v1⟩ := a
    by_cases h1 : k1 = k
    · subst h1
      simp [mapSet, mapGet, h]
    · by_cases h2 : k1 = k2
      · subst h2
        simp [mapSet, mapGet, h1]
      · simp [mapSet, mapGet, h1, h2, ih]

/-! ## Lemmas on `path.extname` -/

theorem extnameLoop_after_dot (r : List Char) :
    ∀ st : ExtState, '/' ∉ r → st.startDot ≠ -1 → st.stop ≠ -1 →
      extnameLoop r st = { st with preDotState := preDotAfter r st.preDotState } := by
  induction r with
  | nil => intro st _ _ _; rfl
  | cons c t ih =>
    intro st hs hd he
    have hc : ¬ (c = '/') := fun e => hs (by simp [e])
    have ht : '/' ∉ t := fun e => hs (List.mem_cons_of_mem _ e)
    by_cases hdot : c = '.'
    · subst hdot
      have hc2 : ¬ ('.' = '/') := by decide
      by_cases h1 : st.preDotState = 1
      · simp only [extnameLoop, hc2, he, hd, h1, if_true, if_false, preDotAfter,
          ne_eq, not_true_eq_false, not_false_eq_true]
        rw [ih st ht hd he, h1]
      · simp only [extnameLoop, hc2, he, hd, h1, if_true, if_false, preDotAfter,
          ne_eq, not_true_eq_false, not_false_eq_true]
        rw [ih _ ht (by simpa using hd) (by simpa using he)]
    · simp only [extnameLoop, hc, he, hd, hdot, if_true, if_false, preDotAfter,
        ne_eq, not_true_eq_false, not_false_eq_true]
      rw [ih _ ht (by simpa using hd) (by simpa using he)]

theorem extnameLoop_before_dot (e p : List Char) :
    ∀ st : ExtState, (∀ c ∈ e, c ≠ '.' ∧ c ≠ '/') → st.startDot = -1 →
      extnameLoop (e ++ '.' :: p) st =
        extnameLoop p
          { st with
            stop := if st.stop = -1 then ((e ++ '.' :: p).length : Int) else st.stop
            matchedSlash := if st.stop = -1 then false else st.matchedSlash
            startDot := (p.length : Int) } := by
  induction e with
  | nil =>
    intro st _ hd
    have hc : ¬ ('.' = '/') := by decide
    by_cases hs : st.stop = -1
    · simp [extnameLoop, hc, hs, hd]
    · simp [extnameLoop, hc, hs, hd]
  | cons c t ih =>
    intro st hall hd
    have hc1 : ¬ (c = '.') := (hall c (by simp)).1
    have hc2 : ¬ (c = '/') := (hall c (by simp)).2
    have ht : ∀ x ∈ t, x ≠ '.' ∧ x ≠ '/' := fun x hx => hall x (List.mem_cons_of_mem _ hx)
    have hcons : (c :: t) ++ '.' :: p = c :: (t ++ '.' :: p) := rfl
    rw [hcons, extnameLoop]
    by_cases hs : st.stop = -1
    · have hne : ¬ (((t ++ '.' :: p).length : Int) + 1 = -1) := by omega
      simp only [hc1, hc2, hs, hd, if_true, if_false, ne_eq, not_true_eq_false]
      rw [ih _ ht rfl]
      simp only [hne, if_false]
      simp
    · simp only [hc1, hc2, hs, hd, if_true, if_false, ne_eq, not_true_eq_false]
      rw [ih _ ht hd]
      simp [hs]

theorem extnameLoop_no_dot (r : List Char) :
    ∀ st : ExtState, '.' ∉ r → st.startDot = -1 → (extnameLoop r st).startDot = -1 := by
  induction r with
  | nil => intro st _ h; exact h
  | cons c t ih =>
    intro st hn hd
    have hc : ¬ (c = '.') := fun e => hn (by simp [e])
    have ht : '.' ∉ t := fun e => hn (List.mem_cons_of_mem _ e)
    by_cases hsl : c = '/'
    · by_cases hm : st.matchedSlash = true
      · simp only [extnameLoop, hsl, hm, if_true, Bool.not_true, Bool.false_eq_true, if_false]
        exact ih st ht hd
      · simp [extnameLoop, hsl, hm, hd]
    · by_cases hs : st.stop = -1
      · simp only [extnameLoop, hsl, hs, hc, hd, if_true, if_false, ne_eq, not_true_eq_false]
        exact ih _ ht rfl
      · simp only [extnameLoop, hsl, hs, hc, hd, if_true, if_false, ne_eq, not_true_eq_false]
        exact ih _ ht hd

theorem preDotAfter_concat (r : List Char) (c : Char) :
    ∀ d : Int, preDotAfter (r ++ [c]) d = if c = '.' then 1 else -1 := by
  induction r with
  | nil => intro d; rfl
  | cons a t ih => intro d; simp [preDotAfter, ih]

theorem preDotAfter_reverse_cons (c : Char) (t : List Char) (d : Int) :
    preDotAfter (c :: t).reverse d = if c = '.' then 1 else -1 := by
  rw [List.reverse_cons]
  exact preDotAfter_concat _ c d

/-- A name without a `.` has no extension. -/
theorem extname_no_dot (n : Str) (h : '.' ∉ n) : extname n = [] := by
  have h1 : (extnameLoop n.reverse ExtState.init).startDot = -1 :=
    extnameLoop_no_dot n.reverse ExtState.init (by simpa using h) rfl
  simp [extname, h1]

/-- The extension of a name without `/` whose last `.` is followed by `e`: it is
`.` followed by `e`, except that a name starting with its last dot, and the name `..`,
have none. -/
theorem extname_append_ext (p e : Str) (hp : '/' ∉ p) (he : '/' ∉ e) (hd : '.' ∉ e) :
    extname (p ++ '.' :: e) = if p = [] ∨ (p = ['.'] ∧ e = []) then [] else '.' :: e := by
  have hall : ∀ c ∈ e.reverse, c ≠ '.' ∧ c ≠ '/' := by
    intro c hc
    rw [List.mem_reverse] at hc
    exact ⟨fun h => hd (h ▸ hc), fun h => he (h ▸ hc)⟩
  have hrev : (p ++ '.' :: e).reverse = e.reverse ++ '.' :: p.reverse := by simp
  have hloop : extnameLoop (p ++ '.' :: e).reverse ExtState.init =
      { startDot := (p.length : Int), startPart := 0,
        stop := ((e.length + (p.length + 1) : Nat) : Int), matchedSlash := false,
        preDotState := preDotAfter p.reverse 0 } := by
    rw [hrev, extnameLoop_before_dot e.reverse p.reverse ExtState.init hall rfl]
    have h1 : ¬ ((p.reverse.length : Int) = -1) := by omega
    have h2 : ¬ (((e.reverse ++ '.' :: p.reverse).length : Int) = -1) := by omega
    rw [extnameLoop_after_dot p.reverse _ (by simpa using hp) (by simp)
      (by simpa [ExtState.init] using h2)]
    simp [ExtState.init]
  unfold extname
  simp only [hloop]
  cases p with
  | nil => simp [preDotAfter]
  | cons c t =>
    rw [preDotAfter_reverse_cons]
    have hslice : slice (c :: t ++ '.' :: e) ((c :: t).length : Int).toNat
        (((e.length + ((c :: t).length + 1) : Nat) : Int)).toNat = '.' :: e := by
      have h1 : ((c :: t).length : Int).toNat = (c :: t).length := by simp
      have h2 : (((e.length + ((c :: t).length + 1) : Nat) : Int)).toNat
          = (c :: t ++ '.' :: e).length := by simp; omega
      rw [h1, h2]
      unfold slice
      rw [List.take_length]
      exact List.drop_left _ _
    rw [hslice]
    by_cases hc : c = '.'
    · subst hc
      cases t with
      | nil =>
        cases e with
        | nil => simp
        | cons a e2 => simp; omega
      | cons b t2 => simp; omega
    · simp [hc]
      omega

/-- A name that contains a `.` splits at its last `.`. -/
theorem exists_last_dot (n : Str) (h : '.' ∈ n) : ∃ p e, n = p ++ '.' :: e ∧ '.' ∉ e := by
  induction n with
  | nil => simp at h
  | cons c t ih =>
    by_cases ht : '.' ∈ t
    · obtain ⟨p, e, h1, h2⟩ := ih ht
      exact ⟨c :: p, e, by simp [h1], h2⟩
    · have hc : c = '.' := by
        rcases List.mem_cons.1 h with h1 | h1
        · exact h1.symm
        · exact absurd h1 ht
      exact ⟨[], t, by simp [hc], ht⟩

/-- The shape of a name without `/` that the Scanner accepts: a non-empty stem, a
`.`, and a non-empty final segment without a `.`, the extension being that `.` and
segment. -/
theorem isSupported_shape (n : Str) (hs : '/' ∉ n) (h : isSupported n = true) :
    ∃ p e, n = p ++ '.' :: e ∧ p ≠ [] ∧ e ≠ [] ∧ '.' ∉ e ∧ extname n = '.' :: e := by
  have hmem : toLowerCase (extname n) ∈ SUPPORTED_FORMATS := by
    simpa [isSupported] using h
  by_cases hdot : '.' ∈ n
  · obtain ⟨p, e, hn, he⟩ := exists_last_dot n hdot
    subst hn
    have hp : '/' ∉ p := fun x => hs (by simp [x])
    have hes : '/' ∉ e := fun x => hs (by simp [x])
    have hext := extname_append_ext p e hp hes he
    by_cases hc : p = [] ∨ (p = ['.'] ∧ e = [])
    · rw [hext, if_pos hc] at hmem
      exact absurd hmem (by decide)
    · rw [if_neg hc] at hext
      have hp2 : p ≠ [] := fun x => hc (Or.inl x)
      have he2 : e ≠ [] := by
        intro x
        subst x
        rw [hext] at hmem
        exact absurd hmem (by decide)
      exact ⟨p, e, rfl, hp2, he2, he, hext⟩
  · rw [extname_no_dot n hdot] at hmem
    exact absurd hmem (by decide)

/-! ## Lemmas on the case of letters -/

theorem toNat_ofNat_upper (n : Nat) (h1 : 65 ≤ n) (h2 : n ≤ 90) :
    (Char.ofNat (n + 32)).toNat = n + 32 := by
  interval_cases n <;> rfl

theorem char_eq_of_toNat_eq (x y : Char) (h : x.toNat = y.toNat) : x = y := by
  rw [← Char.ofNat_toNat x, ← Char.ofNat_toNat y, h]

theorem toLower_eq_iff (x y : Char) (hy : ¬ (65 ≤ y.toNat ∧ y.toNat ≤ 90)) :
    x.toLower = y ↔ sameLetter x y = true := by
  unfold sameLetter Char.toLower
  simp only [Bool.or_eq_true, Bool.and_eq_true, decide_eq_true_eq, ge_iff_le]
  by_cases hx : 65 ≤ x.toNat ∧ x.toNat ≤ 90
  · rw [if_pos hx]
    constructor
    · intro h
      right
      have h1 := congrArg Char.toNat h
      rw [toNat_ofNat_upper _ hx.1 hx.2] at h1
      omega
    · intro h
      rcases h with h | h
      · subst h
        exact absurd hx hy
      · apply char_eq_of_toNat_eq
        rw [toNat_ofNat_upper _ hx.1 hx.2]
        exact h.2
  · rw [if_neg hx]
    constructor
    · intro h
      exact Or.inl h
    · intro h
      rcases h with h | h
      · exact h
      · exfalso
        apply hx
        omega

theorem toLowerCase_eq_iff (t : Str) :
    (∀ y ∈ t, ¬ (65 ≤ y.toNat ∧ y.toNat ≤ 90)) →
    ∀ s : Str, toLowerCase s = t ↔ caseVariant s t = true := by
  induction t with
  | nil =>
    intro _ s
    cases s with
    | nil => simp [toLowerCase, caseVariant]
    | cons a r => simp [toLowerCase, caseVariant]
  | cons y ys ih =>
    intro hy s
    cases s with
    | nil => simp [toLowerCase, caseVariant]
    | cons a r =>
      have h1 := toLower_eq_iff a y (hy y (by simp))
      have h2 := ih (fun z hz => hy z (List.mem_cons_of_mem _ hz)) r
      simp only [toLowerCase, List.map_cons, List.cons.injEq, caseVariant, Bool.and_eq_true]
      unfold toLowerCase at h2
      rw [h1, h2]

/-- The Scanner's test is membership of the extension, up to the case of ASCII
letters, in the six listed formats. -/
theorem isSupported_eq_any (f : Str) :
    isSupported f =
      [".jpg".toList, ".jpeg".toList, ".png".toList, ".webp".toList, ".gif".toList,
        ".bmp".toList].any (fun t => caseVariant (extname f) t) := by
  have h1 := toLowerCase_eq_iff ".jpg".toList (by decide) (extname f)
  have h2 := toLowerCase_eq_iff ".jpeg".toList (by decide) (extname f)
  have h3 := toLowerCase_eq_iff ".png".toList (by decide) (extname f)
  have h4 := toLowerCase_eq_iff ".webp".toList (by decide) (extname f)
  have h5 := toLowerCase_eq_iff ".gif".toList (by decide) (extname f)
  have h6 := toLowerCase_eq_iff ".bmp".toList (by decide) (extname f)
  rw [Bool.eq_iff_iff]
  simp only [isSupported, SUPPORTED_FORMATS, decide_eq_true_eq, List.mem_cons,
    List.mem_singleton, List.not_mem_nil, or_false, List.any_cons, List.any_nil,
    Bool.or_false, Bool.or_eq_true, h1, h2, h3, h4, h5, h6]

theorem caseVariant_dot_cons (ext t : Str) :
    caseVariant ('.' :: ext) ('.' :: t) = caseVariant ext t := by
  have h : sameLetter '.' '.' = true := by decide
  simp only [caseVariant, h, Bool.true_and]

theorem caseVariant_ne_nil (s : Str) (c : Char) (t : Str)
    (h : caseVariant s (c :: t) = true) : s ≠ [] := by
  intro hs
  subst hs
  simp [caseVariant] at h

/-- On an entry name without `/`, the Scanner's test holds exactly when the name is
a non-empty stem, a `.`, and a final segment without `.` that is one of the six
format names up to case. -/
theorem isSupported_iff_shape (f : Str) (hs : '/' ∉ f) :
    isSupported f = true ↔
      ∃ stem ext, f = stem ++ '.' :: ext ∧ stem ≠ [] ∧ '.' ∉ ext ∧
        ["jpg".toList, "jpeg".toList, "png".toList, "webp".toList, "gif".toList,
          "bmp".toList].any (fun t => caseVariant ext t) = true := by
  have hbare : ∀ ext : Str,
      [".jpg".toList, ".jpeg".toList, ".png".toList, ".webp".toList, ".gif".toList,
        ".bmp".toList].any (fun t => caseVariant ('.' :: ext) t)
      = ["jpg".toList, "jpeg".toList, "png".toList, "webp".toList, "gif".toList,
          "bmp".toList].any (fun t => caseVariant ext t) := by
    intro ext
    have e1 : ".jpg".toList = '.' :: "jpg".toList := rfl
    have e2 : ".jpeg".toList = '.' :: "jpeg".toList := rfl
    have e3 : ".png".toList = '.' :: "png".toList := rfl
    have e4 : ".webp".toList = '.' :: "webp".toList := rfl
    have e5 : ".gif".toList = '.' :: "gif".toList := rfl
    have e6 : ".bmp".toList = '.' :: "bmp".toList := rfl
    simp only [List.any_cons, List.any_nil, e1, e2, e3, e4, e5, e6, caseVariant_dot_cons]
  constructor
  · intro h
    obtain ⟨p, e, hf, hp, _, hdot, hext⟩ := isSupported_shape f hs h
    refine ⟨p, e, hf, hp, hdot, ?_⟩
    rw [isSupported_eq_any, hext, hbare] at h
    exact h
  · rintro ⟨stem, ext, hf, hstem, hdot, hany⟩
    have hext0 : ext ≠ [] := by
      intro h0
      subst h0
      revert hany
      decide
    subst hf
    have hp : '/' ∉ stem := fun x => hs (by simp [x])
    have hes : '/' ∉ ext := fun x => hs (by simp [x])
    have hext := extname_append_ext stem ext hp hes hdot
    have hc : ¬ (stem = [] ∨ (stem = ['.'] ∧ ext = [])) := by
      rintro (h1 | ⟨_, h2⟩)
      · exact hstem h1
      · exact hext0 h2
    rw [if_neg hc] at hext
    rw [isSupported_eq_any, hext, hbare]
    exact hany

/-- The stem of a Scanner name followed by `.jpg` is an entry name. -/
theorem entryName_key_jpg (n : Str) (hs : '/' ∉ n) (h : isSupported n = true) :
    EntryName (stripExt n ++ ".jpg".toList) := by
  obtain ⟨p, e, hn, _, he, hdot, _⟩ := isSupported_shape n hs h
  have hkey : stripExt n = p := by
    rw [hn]
    exact stripExt_append_ext p e he hdot
  have hp : '/' ∉ p := fun x => hs (by rw [hn]; simp [x])
  rw [hkey]
  have hlen : 4 ≤ (p ++ ".jpg".toList).length := by
    rw [List.length_append]
    have : (".jpg".toList).length = 4 := rfl
    omega
  refine ⟨?_, ?_, ?_, ?_⟩
  · intro h0
    rw [h0] at hlen
    simp at hlen
  · intro hmem
    rcases List.mem_append.1 hmem with h1 | h1
    · exact hp h1
    · revert h1
      decide
  · intro h0
    rw [h0] at hlen
    simp at hlen
  · intro h0
    rw [h0] at hlen
    simp at hlen

/-! ## Lemmas on Numbers -/

theorem log2Fuel_spec (fuel : Nat) :
    ∀ n, n ≤ fuel → 0 < n → 2 ^ log2Fuel fuel n ≤ n ∧ n < 2 ^ (log2Fuel fuel n + 1) := by
  induction fuel with
  | zero => intro n h1 h2; omega
  | succ fuel ih =>
    intro n h1 h2
    unfold log2Fuel
    by_cases h : n < 2
    · simp only [h, if_true]
      have : n = 1 := by omega
      subst this
      decide
    · simp only [h, if_false]
      have hd : n / 2 ≤ fuel := by omega
      have hp : 0 < n / 2 := by omega
      obtain ⟨h3, h4⟩ := ih (n / 2) hd hp
      rw [Nat.pow_succ, Nat.pow_succ]
      constructor <;> omega

theorem binaryLog_spec (n : Nat) (h : 0 < n) :
    2 ^ binaryLog n ≤ n ∧ n < 2 ^ (binaryLog n + 1) :=
  log2Fuel_spec n n (Nat.le_refl n) h

theorem floorLog2_le (a b E : Nat) (ha : 0 < a) (hb : 0 < b) (hE : a < 2 ^ E * b) :
    floorLog2 a b ≤ (E : Int) - 1 := by
  obtain ⟨ha1, _⟩ := binaryLog_spec a ha
  obtain ⟨_, hb2⟩ := binaryLog_spec b hb
  have h1 : 2 ^ binaryLog a < 2 ^ (E + (binaryLog b + 1)) := by
    calc 2 ^ binaryLog a ≤ a := ha1
      _ < 2 ^ E * b := hE
      _ < 2 ^ E * 2 ^ (binaryLog b + 1) := Nat.mul_lt_mul_of_pos_left hb2 (Nat.pow_pos (by decide))
      _ = 2 ^ (E + (binaryLog b + 1)) := (Nat.pow_add 2 E _).symm
  have h2 : binaryLog a < E + (binaryLog b + 1) := (Nat.pow_lt_pow_iff_right (by decide)).1 h1
  unfold floorLog2
  by_cases h3 : (binaryLog a : Int) - (binaryLog b : Int) = (E : Int)
  · have h4 : a * 2 ^ (-((binaryLog a : Int) - (binaryLog b : Int))).toNat
        < b * 2 ^ ((binaryLog a : Int) - (binaryLog b : Int)).toNat := by
      rw [h3]
      have h5 : (-(E : Int)).toNat = 0 := by omega
      have h6 : ((E : Int)).toNat = E := by omega
      rw [h5, h6, Nat.pow_zero, Nat.mul_one, Nat.mul_comm]
      exact hE
    show (if a * 2 ^ (-((binaryLog a : Int) - (binaryLog b : Int))).toNat
        < b * 2 ^ ((binaryLog a : Int) - (binaryLog b : Int)).toNat
      then (binaryLog a : Int) - (binaryLog b : Int) - 1
      else (binaryLog a : Int) - (binaryLog b : Int)) ≤ (E : Int) - 1
    rw [if_pos h4]
    omega
  · show (if a * 2 ^ (-((binaryLog a : Int) - (binaryLog b : Int))).toNat
        < b * 2 ^ ((binaryLog a : Int) - (binaryLog b : Int)).toNat
      then (binaryLog a : Int) - (binaryLog b : Int) - 1
      else (binaryLog a : Int) - (binaryLog b : Int)) ≤ (E : Int) - 1
    split <;> omega

theorem roundHalfEven_le (p q K : Nat) (hq : 0 < q) (h : p ≤ K * q) : roundHalfEven p q ≤ K := by
  have hf : p / q ≤ K := by
    calc p / q ≤ K * q / q := Nat.div_le_div_right h
      _ = K := Nat.mul_div_cancel K hq
  by_cases hlt : p / q < K
  · unfold roundHalfEven
    split
    · omega
    · split
      · omega
      · split <;> omega
  · have hK : p / q = K := by omega
    have hmod : p % q = 0 := by
      have h1 := Nat.div_add_mod p q
      rw [hK] at h1
      have h2 : q * K = K * q := Nat.mul_comm q K
      omega
    unfold roundHalfEven
    rw [hmod]
    simp only [Nat.mul_zero, hq, if_true]
    omega

theorem roundHalfEven_near (p q : Nat) (hq : 0 < q) :
    2 * (roundHalfEven p q * q) ≤ 2 * p + q ∧ 2 * p ≤ 2 * (roundHalfEven p q * q) + q := by
  have h1 := Nat.div_add_mod p q
  have h2 := Nat.mod_lt p hq
  have h3 : (p / q + 1) * q = q * (p / q) + q := by ring
  have h4 : p / q * q = q * (p / q) := Nat.mul_comm _ _
  unfold roundHalfEven
  split
  · rw [h4]; omega
  · split
    · rw [h3]; omega
    · split
      · rw [h4]; omega
      · rw [h3]; omega

theorem roundHalfEven_one (p : Nat) : roundHalfEven p 1 = p := by
  unfold roundHalfEven
  simp [Nat.mod_one]

theorem two_pow_53_lt_doubleLimit : 2 ^ 53 < doubleLimit := by
  unfold doubleLimit
  have h1 : (2:Nat) ^ 53 < 2 ^ 256 := Nat.pow_lt_pow_right (by decide) (by decide)
  have h2 : 0 < (2:Nat) ^ 256 := Nat.pow_pos (by decide)
  calc 2 ^ 53 < 2 ^ 256 := h1
    _ ≤ 2 ^ 256 * 2 ^ 256 := Nat.le_mul_of_pos_right _ h2
    _ ≤ 2 ^ 256 * 2 ^ 256 * 2 ^ 256 := Nat.le_mul_of_pos_right _ h2
    _ ≤ 2 ^ 256 * 2 ^ 256 * 2 ^ 256 * 2 ^ 256 := Nat.le_mul_of_pos_right _ h2

/-- Rounding a positive fraction below `2 ^ E`, `E ≤ 53`: the result is finite, its
denominator is `2 ^ k` with `53 ≤ k + E`, and its numerator is the fraction scaled by
`2 ^ k` rounded to the nearest integer. -/
theorem roundToDouble_spec (neg : Bool) (a b E : Nat) (ha : 0 < a) (hb : 0 < b)
    (hE : a < 2 ^ E * b) (hE53 : E ≤ 53) :
    ∃ k, 53 ≤ k + E ∧
      roundToDouble neg a b = JsNum.fin neg (roundHalfEven (a * 2 ^ k) b) (2 ^ k) := by
  have hl := floorLog2_le a b E ha hb hE
  have he : max (floorLog2 a b - 52) (-1074) ≤ (E : Int) - 53 := by omega
  have he0 : (max (floorLog2 a b - 52) (-1074)).toNat = 0 := by omega
  refine ⟨(-(max (floorLog2 a b - 52) (-1074))).toNat, by omega, ?_⟩
  have hm : roundHalfEven (a * 2 ^ (-(max (floorLog2 a b - 52) (-1074))).toNat) b
      ≤ 2 ^ E * 2 ^ (-(max (floorLog2 a b - 52) (-1074))).toNat := by
    apply roundHalfEven_le _ _ _ hb
    have := Nat.mul_le_mul_right (2 ^ (-(max (floorLog2 a b - 52) (-1074))).toNat) (Nat.le_of_lt hE)
    calc a * 2 ^ (-(max (floorLog2 a b - 52) (-1074))).toNat
        ≤ 2 ^ E * b * 2 ^ (-(max (floorLog2 a b - 52) (-1074))).toNat := this
      _ = 2 ^ E * 2 ^ (-(max (floorLog2 a b - 52) (-1074))).toNat * b := by ring
  have hlim : ¬ (doubleLimit * 2 ^ (-(max (floorLog2 a b - 52) (-1074))).toNat
      ≤ roundHalfEven (a * 2 ^ (-(max (floorLog2 a b - 52) (-1074))).toNat) b) := by
    intro hcon
    have hpos : 0 < 2 ^ (-(max (floorLog2 a b - 52) (-1074))).toNat := Nat.pow_pos (by decide)
    have h1 : 2 ^ E ≤ 2 ^ 53 := Nat.pow_le_pow_right (by decide) hE53
    have h2 : 2 ^ E < doubleLimit := Nat.lt_of_le_of_lt h1 two_pow_53_lt_doubleLimit
    have h3 := Nat.mul_lt_mul_of_pos_right h2 hpos
    omega
  unfold roundToDouble
  simp only [if_neg (Nat.pos_iff_ne_zero.1 ha), he0, Nat.pow_zero, Nat.mul_one, if_neg hlim]

/-- Rounding a fraction that is at most the integer `c < 2 ^ 53` gives a finite value
that is at most `c`. -/
theorem roundToDouble_bounded (neg : Bool) (a b c : Nat) (hb : 0 < b) (hc : c < 2 ^ 53)
    (h : a ≤ c * b) :
    ∃ num den, roundToDouble neg a b = JsNum.fin neg num den ∧ 0 < den ∧ num ≤ c * den := by
  by_cases ha : a = 0
  · refine ⟨0, 1, ?_, by decide, by omega⟩
    simp [roundToDouble, ha]
  · have ha0 : 0 < a := Nat.pos_of_ne_zero ha
    have hlt : a < 2 ^ 53 * b := Nat.lt_of_le_of_lt h (Nat.mul_lt_mul_of_pos_right hc hb)
    obtain ⟨k, _, hk⟩ := roundToDouble_spec neg a b 53 ha0 hb hlt (Nat.le_refl 53)
    refine ⟨_, _, hk, Nat.pow_pos (by decide), ?_⟩
    apply roundHalfEven_le _ _ _ hb
    calc a * 2 ^ k ≤ c * b * 2 ^ k := Nat.mul_le_mul_right _ h
      _ = c * 2 ^ k * b := by ring

theorem savingsPercent_fin (optimizedSize originalSize : Nat) (h0 : 0 < originalSize)
    (hle : optimizedSize ≤ originalSize) :
    ∃ num den, savingsPercent optimizedSize originalSize = JsNum.fin false num den ∧
      0 < den ∧ num ≤ 100 * den := by
  obtain ⟨n1, d1, h1, hd1, hn1⟩ := roundToDouble_bounded false (optimizedSize * 1)
    (1 * originalSize) 1 (by omega) (by decide) (by omega)
  have hdiv : jsDiv (jsInt optimizedSize) (jsInt originalSize) = JsNum.fin false n1 d1 := by
    simp only [jsDiv, jsInt, if_neg (Nat.pos_iff_ne_zero.1 h0), Bool.xor_false]
    exact h1
  have hsub : ∃ n2 d2, jsSub (jsInt 1) (JsNum.fin false n1 d1) = JsNum.fin false n2 d2 ∧
      0 < d2 ∧ n2 ≤ 1 * d2 := by
    by_cases hz : signedNum false (1 * d1) - signedNum false (n1 * 1) = 0
    · refine ⟨0, 1, ?_, by decide, by omega⟩
      simp only [jsSub, jsInt, if_pos hz]
      rfl
    · have hpos : ¬ (signedNum false (1 * d1) - signedNum false (n1 * 1) < 0) := by
        simp only [signedNum, Bool.false_eq_true, if_false]
        push_cast
        omega
      have habs : (signedNum false (1 * d1) - signedNum false (n1 * 1)).natAbs ≤ 1 * (1 * d1) := by
        simp only [signedNum, Bool.false_eq_true, if_false]
        omega
      obtain ⟨n2, d2, h2, hd2, hn2⟩ := roundToDouble_bounded false
        (signedNum false (1 * d1) - signedNum false (n1 * 1)).natAbs (1 * d1) 1 (by omega)
        (by decide) habs
      refine ⟨n2, d2, ?_, hd2, hn2⟩
      simp only [jsSub, jsInt, if_neg hz, hpos, decide_False]
      exact h2
  obtain ⟨n2, d2, h2, hd2, hn2⟩ := hsub
  obtain ⟨n3, d3, h3, hd3, hn3⟩ := roundToDouble_bounded false (n2 * 100) (d2 * 1) 100
    (by omega) (by decide) (by omega)
  refine ⟨n3, d3, ?_, hd3, hn3⟩
  unfold savingsPercent
  rw [hdiv, h2]
  simp only [jsMul, jsInt, Bool.xor_false]
  exact h3

theorem toFixed_fin_nonneg (digits num den : Nat) (hd : 0 < den) (h : num < 10 ^ 21 * den) :
    toFixed digits (JsNum.fin false num den)
        = some (renderFixed digits ((2 * num * 10 ^ digits + den) / (2 * den))) ∧
      2 * den * ((2 * num * 10 ^ digits + den) / (2 * den)) ≤ 2 * num * 10 ^ digits + den ∧
      2 * num * 10 ^ digits + den < 2 * den * ((2 * num * 10 ^ digits + den) / (2 * den) + 1) := by
  have h1 : ¬ (10 ^ 21 * den ≤ num) := by omega
  refine ⟨?_, ?_, ?_⟩
  · simp only [toFixed, if_neg h1, Bool.false_and, Bool.false_eq_true, if_false, List.nil_append]
  · exact Nat.mul_div_le _ _
  · exact Nat.lt_mul_div_succ _ (by omega)

theorem jsParseInt_exact (w : Nat) (hw : w < 2 ^ 53) :
    ∃ d, 0 < d ∧ jsParseInt w = JsNum.fin false (w * d) d := by
  by_cases h0 : w = 0
  · subst h0
    exact ⟨1, by decide, by decide⟩
  · obtain ⟨k, _, hk⟩ := roundToDouble_spec false w 1 53 (Nat.pos_of_ne_zero h0) (by decide)
      (by omega) (Nat.le_refl 53)
    rw [roundHalfEven_one] at hk
    exact ⟨2 ^ k, Nat.pow_pos (by decide), hk⟩

/-! ## Lemmas on `replace` with a string pattern -/

/-- When `x` occurs in `p ++ x` only as its suffix, replacing the first occurrence of
`x` by the empty string leaves `p`. -/
theorem replaceFirst_only_suffix (x : Str) (hx : x ≠ []) (p : Str) :
    (∀ q r, p ++ x = q ++ x ++ r → r = []) → replaceFirst (p ++ x) x [] = p := by
  induction p with
  | nil =>
    intro _
    cases x with
    | nil => exact absurd rfl hx
    | cons a t => simp [replaceFirst]
  | cons a t ih =>
    intro h
    have hnp : List.isPrefixOf x (a :: (t ++ x)) = false := by
      cases hp : List.isPrefixOf x (a :: (t ++ x)) with
      | false => rfl
      | true =>
        obtain ⟨r, hr⟩ := List.isPrefixOf_iff_prefix.1 hp
        have hr2 : r = [] := h [] r (by simpa using hr.symm)
        subst hr2
        have hlen := congrArg List.length hr
        simp at hlen
        omega
    have ht : ∀ q r, t ++ x = q ++ x ++ r → r = [] := by
      intro q r hq
      exact h (a :: q) r (by simp [hq])
    have hcons : (a :: t) ++ x = a :: (t ++ x) := rfl
    rw [hcons, replaceFirst, hnp, if_neg (by simp), ih ht]

theorem extensionOnlyFinal_spec (n : Str) (h : extensionOnlyFinal n = true) :
    ∀ q r, n = q ++ extname n ++ r → r = [] := by
  intro q r hq
  unfold extensionOnlyFinal at h
  rw [List.all_eq_true] at h
  have hlen : n.length = q.length + (extname n).length + r.length := by
    have := congrArg List.length hq
    simp at this
    omega
  have hi := h q.length (by rw [List.mem_range]; omega)
  have hdrop : n.drop q.length = extname n ++ r := by
    have h2 : n = q ++ (extname n ++ r) := by simpa using hq
    calc n.drop q.length = (q ++ (extname n ++ r)).drop q.length := by rw [← h2]
      _ = extname n ++ r := List.drop_left _ _
  have hpre : List.isPrefixOf (extname n) (n.drop q.length) = true := by
    rw [hdrop]
    exact List.isPrefixOf_iff_prefix.2 (List.prefix_append _ _)
  rw [hpre] at hi
  simp at hi
  have hr : r.length = 0 := by omega
  exact List.length_eq_zero.1 hr

/-- On a Scanner name whose extension text occurs only at its end, the Optimizer's
stem is the Reconciler's key. -/
theorem outputFileName_eq_key (n : Str) (hs : '/' ∉ n) (h : isSupported n = true)
    (honly : extensionOnlyFinal n = true) : outputFileName n = stripExt n ++ ".jpg".toList := by
  obtain ⟨p, e, hn, _, he, hdot, hext⟩ := isSupported_shape n hs h
  have hkey : stripExt n = p := by
    rw [hn]
    exact stripExt_append_ext p e he hdot
  have hrep : replaceFirst n (extname n) [] = p := by
    rw [hext]
    have h2 : ∀ q r, p ++ '.' :: e = q ++ '.' :: e ++ r → r = [] := by
      intro q r hq
      refine extensionOnlyFinal_spec n honly q r ?_
      rw [hext, hn]
      exact hq
    have h3 := replaceFirst_only_suffix ('.' :: e) (by simp) p h2
    rw [hn]
    exact h3
  unfold outputFileName
  rw [hrep, hkey]

/-! ## Lemmas on the Optimizer loop -/

theorem optimizeLoop_spec (lib : PathLib) (outputDir : Str) (items : List (Str × Outcome)) :
    ∀ st : OptState,
      (optimizeLoop lib outputDir items st).visited
          = st.visited ++ items.map (fun it => lib.basename it.1) ∧
      (optimizeLoop lib outputDir items st).successCount
          = st.successCount + (items.filter (fun it => it.2.succeeded)).length ∧
      (optimizeLoop lib outputDir items st).failCount
          = st.failCount + (items.filter (fun it => !it.2.succeeded)).length ∧
      (optimizeLoop lib outputDir items st).totalOriginalSize
          = st.totalOriginalSize
            + ((items.filter (fun it => it.2.succeeded)).map (fun it => it.2.originalBytes)).sum ∧
      (optimizeLoop lib outputDir items st).totalOptimizedSize
          = st.totalOptimizedSize
            + ((items.filter (fun it => it.2.succeeded)).map
                (fun it => it.2.optimizedBytes)).sum := by
  induction items with
  | nil => intro st; simp [optimizeLoop]
  | cons it rest ih =>
    intro st
    have hstep : optimizeLoop lib outputDir (it :: rest) st
        = optimizeLoop lib outputDir rest (optimizeStep lib outputDir st it) := rfl
    rw [hstep]
    obtain ⟨h1, h2, h3, h4, h5⟩ := ih (optimizeStep lib outputDir st it)
    rw [h1, h2, h3, h4, h5]
    obtain ⟨path, outcome⟩ := it
    cases outcome <;>
      simp [optimizeStep, Outcome.succeeded, Outcome.originalBytes, Outcome.optimizedBytes] <;>
      omega

theorem filter_length_add_filter_not {α : Type} (p : α → Bool) (l : List α) :
    (l.filter p).length + (l.filter (fun a => !p a)).length = l.length := by
  induction l with
  | nil => rfl
  | cons a t ih =>
    cases h : p a <;> simp [List.filter, h] <;> omega

/-! ## Lemmas on the Reconciler -/

theorem getProp_setProp_self (o : List (Str × JsVal)) (k : Str) (v : JsVal) :
    getProp (setProp o k v) k = some v := by
  induction o with
  | nil => simp [setProp, getProp]
  | cons a t ih =>
    obtain ⟨k1, v1⟩ := a
    by_cases h : k1 = k
    · simp [setProp, getProp, h]
    · simp [setProp, getProp, h, ih]

theorem getProp_setProp_other (o : List (Str × JsVal)) (k k2 : Str) (v : JsVal) (h : k ≠ k2) :
    getProp (setProp o k v) k2 = getProp o k2 := by
  induction o with
  | nil => simp [setProp, getProp, h]
  | cons a t ih =>
    obtain ⟨k1, v1⟩ := a
    by_cases h1 : k1 = k
    · subst h1
      simp [setProp, getProp, h]
    · by_cases h2 : k1 = k2
      · subst h2
        simp [setProp, getProp, h1]
      · simp [setProp, getProp, h1, h2, ih]

/-- The three ways in which an iteration of the loop completes. -/
theorem reconcileFile_ok_cases (lib : JSONLib) (m : UrlMap) (st st1 : Run) (f : Str)
    (h : reconcileFile lib m st f = Except.ok st1) :
    (truthyUrl (mapGet m f) = none ∧
      st1 = { st with skipped := st.skipped + 1, log := st.log ++ [LogLine.skip f] }) ∨
    (∃ u c v img, truthyUrl (mapGet m f) = some u ∧ st.dir.content f = some c ∧
      lib.parse c = some v ∧ getImage v = some img ∧
      ((strictEqualsUrl img u = true ∧
          st1 = { st with log := st.log ++ [LogLine.upToDate f] }) ∨
       (strictEqualsUrl img u = false ∧ ∃ w, setImage v u = some w ∧
          st.dir.writable f = true ∧
          st1 = { st with
                  dir := st.dir.write f (lib.stringify w)
                  log := st.log ++ [LogLine.updated f]
                  updated := st.updated + 1 }))) := by
  unfold reconcileFile at h
  cases hurl : truthyUrl (mapGet m f) with
  | none =>
    rw [hurl] at h
    left
    exact ⟨rfl, (Except.ok.inj h).symm⟩
  | some u =>
    rw [hurl] at h
    right
    cases hc : st.dir.content f with
    | none => rw [hc] at h; cases h
    | some c =>
      rw [hc] at h
      cases hp : lib.parse c with
      | none => simp only [hp] at h; cases h
      | some v =>
        simp only [hp] at h
        cases hg : getImage v with
        | none => simp only [hg] at h; cases h
        | some img =>
          simp only [hg] at h
          refine ⟨u, c, v, img, rfl, rfl, hp, hg, ?_⟩
          cases heq : strictEqualsUrl img u with
          | true =>
            simp only [heq, if_true] at h
            left
            exact ⟨rfl, (Except.ok.inj h).symm⟩
          | false =>
            simp only [heq, Bool.false_eq_true, if_false] at h
            right
            cases hset : setImage v u with
            | none => simp only [hset] at h; cases h
            | some w =>
              simp only [hset] at h
              cases hw : st.dir.writable f with
              | false => simp only [hw, Bool.false_eq_true, if_false] at h; cases h
              | true =>
                simp only [hw, if_true] at h
                exact ⟨rfl, w, rfl, rfl, (Except.ok.inj h).symm⟩

/-- An iteration on a settled entry writes nothing. -/
theorem reconcileFile_settled (lib : JSONLib) (m : UrlMap) (st : Run) (f : Str)
    (h : Settled lib m st.dir f) :
    reconcileFile lib m st f = Except.ok
      { st with
        skipped := st.skipped + (if truthyUrl (mapGet m f) = none then 1 else 0)
        log := st.log ++ [settledLine m f] } := by
  rcases h with h | ⟨u, c, v, img, hu, hc, hp, hg, heq⟩
  · simp [reconcileFile, settledLine, h]
  · simp [reconcileFile, settledLine, hu, hc, hp, hg, heq]

theorem write_content_other (d : MetaDir) (g f data : Str) (h : g ≠ f) :
    (d.write g data).content f = d.content f := by
  have h1 : ¬ (f = g) := fun e => h e.symm
  simp [MetaDir.write, h1]

theorem write_content_self (d : MetaDir) (g data : Str) :
    (d.write g data).content g = some data := by
  simp [MetaDir.write]

/-- An iteration changes the content of no entry but its own. -/
theorem reconcileFile_content_other (lib : JSONLib) (m : UrlMap) (st st1 : Run) (g f : Str)
    (h : reconcileFile lib m st g = Except.ok st1) (hne : g ≠ f) :
    st1.dir.content f = st.dir.content f := by
  rcases reconcileFile_ok_cases lib m st st1 g h with ⟨_, h1⟩ | ⟨u, c, v, img, _, _, _, _, h1⟩
  · rw [h1]
  · rcases h1 with ⟨_, h2⟩ | ⟨_, w, _, _, h2⟩
    · rw [h2]
    · rw [h2]
      exact write_content_other st.dir g f _ hne

/-- An iteration changes neither the listing nor the write permissions. -/
theorem reconcileFile_listing (lib : JSONLib) (m : UrlMap) (st st1 : Run) (g : Str)
    (h : reconcileFile lib m st g = Except.ok st1) :
    st1.dir.listing = st.dir.listing ∧ st1.dir.writable = st.dir.writable := by
  rcases reconcileFile_ok_cases lib m st st1 g h with ⟨_, h1⟩ | ⟨u, c, v, img, _, _, _, _, h1⟩
  · rw [h1]; exact ⟨rfl, rfl⟩
  · rcases h1 with ⟨_, h2⟩ | ⟨_, w, _, _, h2⟩
    · rw [h2]; exact ⟨rfl, rfl⟩
    · rw [h2]; exact ⟨rfl, rfl⟩

theorem reconcileFile_preserves_settled (lib : JSONLib) (m : UrlMap) (st st1 : Run) (g f : Str)
    (h : reconcileFile lib m st g = Except.ok st1) (hs : Settled lib m st.dir f) :
    Settled lib m st1.dir f := by
  by_cases hgf : g = f
  · subst hgf
    have h2 := reconcileFile_settled lib m st g hs
    rw [h2] at h
    rw [← Except.ok.inj h]
    exact hs
  · rcases hs with hs | ⟨u, c, v, img, hu, hc, hp, hg, heq⟩
    · exact Or.inl hs
    · refine Or.inr ⟨u, c, v, img, hu, ?_, hp, hg, heq⟩
      rw [reconcileFile_content_other lib m st st1 g f h hgf]
      exact hc

theorem setImage_of_not_arr (v w : JsVal) (u : Str) (h : setImage v u = some w)
    (hv : ∀ e x, v ≠ JsVal.arr e x) :
    ∃ o, v = JsVal.obj o ∧ w = JsVal.obj (setProp o imageKey (JsVal.str u)) := by
  cases v with
  | null => simp [setImage] at h
  | bool b => simp [setImage] at h
  | num n => simp [setImage] at h
  | str s => simp [setImage] at h
  | arr e x => exact absurd rfl (hv e x)
  | obj o =>
    simp only [setImage, Option.some.injEq] at h
    exact ⟨o, rfl, h.symm⟩

theorem reconcileFile_makes_settled (lib : JSONLib) (hrt : RoundTripsImage lib) (m : UrlMap)
    (st st1 : Run) (f : Str) (h : reconcileFile lib m st f = Except.ok st1)
    (hobj : HoldsNoArray lib m st.dir f) : Settled lib m st1.dir f := by
  rcases reconcileFile_ok_cases lib m st st1 f h with ⟨h0, _⟩ | ⟨u, c, v, img, hu, hc, hp, hg, h1⟩
  · exact Or.inl h0
  · rcases h1 with ⟨heq, h2⟩ | ⟨_, w, hset, _, h2⟩
    · refine Or.inr ⟨u, c, v, img, hu, ?_, hp, hg, heq⟩
      rw [h2]
      exact hc
    · have hv : ∀ e x, v ≠ JsVal.arr e x := by
        intro e x hvx
        exact hobj u c e x hu hc (by rw [hp, hvx])
      obtain ⟨o, _, hw⟩ := setImage_of_not_arr v w u hset hv
      obtain ⟨o1, hparse, hget⟩ := hrt o u
      refine Or.inr ⟨u, lib.stringify w, JsVal.obj o1, some (JsVal.str u), hu, ?_, ?_, ?_, ?_⟩
      · rw [h2]
        exact write_content_self st.dir f _
      · rw [hw]
        exact hparse
      · simp [getImage, hget]
      · simp [strictEqualsUrl]

theorem reconcileFile_preserves_noArray (lib : JSONLib) (hrt : RoundTripsImage lib) (m : UrlMap)
    (st st1 : Run) (g f : Str) (h : reconcileFile lib m st g = Except.ok st1)
    (hobj : HoldsNoArray lib m st.dir f) : HoldsNoArray lib m st1.dir f := by
  by_cases hgf : g = f
  · subst hgf
    intro u c e x hu hc hp
    rcases reconcileFile_ok_cases lib m st st1 g h with ⟨h0, _⟩ |
      ⟨u3, c3, v3, img3, hu3, hc3, hp3, hg3, h1⟩
    · rw [h0] at hu
      cases hu
    · rcases h1 with ⟨_, h2⟩ | ⟨_, w, hset, _, h2⟩
      · rw [h2] at hc
        exact hobj u c e x hu hc hp
      · have hv : ∀ e x, v3 ≠ JsVal.arr e x := by
          intro e1 x1 hvx
          exact hobj u3 c3 e1 x1 hu3 hc3 (by rw [hp3, hvx])
        obtain ⟨o, _, hw⟩ := setImage_of_not_arr v3 w u3 hset hv
        obtain ⟨o1, hparse, _⟩ := hrt o u3
        rw [h2, write_content_self] at hc
        rw [← Option.some.inj hc, hw, hparse] at hp
        cases hp
  · intro u c e x hu hc hp
    rw [reconcileFile_content_other lib m st st1 g f h hgf] at hc
    exact hobj u c e x hu hc hp

theorem reconcileLoop_cons_ok (lib : JSONLib) (m : UrlMap) (g : Str) (rest : List Str)
    (st st2 : Run) (h : reconcileLoop lib m (g :: rest) st = Except.ok st2) :
    ∃ st1, reconcileFile lib m st g = Except.ok st1 ∧
      reconcileLoop lib m rest st1 = Except.ok st2 := by
  unfold reconcileLoop at h
  cases hstep : reconcileFile lib m st g with
  | error e => rw [hstep] at h; cases h
  | ok st1 => rw [hstep] at h; exact ⟨st1, rfl, h⟩

theorem reconcileLoop_preserves_settled (lib : JSONLib) (m : UrlMap) (f : Str)
    (files : List Str) :
    ∀ st st2 : Run, reconcileLoop lib m files st = Except.ok st2 →
      Settled lib m st.dir f → Settled lib m st2.dir f := by
  induction files with
  | nil =>
    intro st st2 h hs
    rw [← Except.ok.inj h]
    exact hs
  | cons g rest ih =>
    intro st st2 h hs
    obtain ⟨st1, h1, h2⟩ := reconcileLoop_cons_ok lib m g rest st st2 h
    exact ih st1 st2 h2 (reconcileFile_preserves_settled lib m st st1 g f h1 hs)

theorem reconcileLoop_listing (lib : JSONLib) (m : UrlMap) (files : List Str) :
    ∀ st st2 : Run, reconcileLoop lib m files st = Except.ok st2 →
      st2.dir.listing = st.dir.listing := by
  induction files with
  | nil =>
    intro st st2 h
    rw [← Except.ok.inj h]
  | cons g rest ih =>
    intro st st2 h
    obtain ⟨st1, h1, h2⟩ := reconcileLoop_cons_ok lib m g rest st st2 h
    rw [ih st1 st2 h2, (reconcileFile_listing lib m st st1 g h1).1]

/-- After a completed loop every visited entry is settled. -/
theorem reconcileLoop_settles (lib : JSONLib) (hrt : RoundTripsImage lib) (m : UrlMap)
    (files : List Str) :
    ∀ st st2 : Run, reconcileLoop lib m files st = Except.ok st2 →
      (∀ f ∈ files, HoldsNoArray lib m st.dir f) →
      ∀ f ∈ files, Settled lib m st2.dir f := by
  induction files with
  | nil => intro st st2 _ _ f hf; simp at hf
  | cons g rest ih =>
    intro st st2 h hobj f hf
    obtain ⟨st1, h1, h2⟩ := reconcileLoop_cons_ok lib m g rest st st2 h
    have hobj1 : ∀ f ∈ rest, HoldsNoArray lib m st1.dir f := fun f1 hf1 =>
      reconcileFile_preserves_noArray lib hrt m st st1 g f1 h1
        (hobj f1 (List.mem_cons_of_mem _ hf1))
    by_cases hmem : f ∈ rest
    · exact ih st1 st2 h2 hobj1 f hmem
    · have hfg : f = g := by
        rcases List.mem_cons.1 hf with h3 | h3
        · exact h3
        · exact absurd h3 hmem
      subst hfg
      have hs1 := reconcileFile_makes_settled lib hrt m st st1 f h1 (hobj f (by simp))
      exact reconcileLoop_preserves_settled lib m f rest st1 st2 h2 hs1

/-- A loop over settled entries completes, writes nothing, counts no update and
prints one line per entry. -/
theorem reconcileLoop_on_settled (lib : JSONLib) (m : UrlMap) (files : List Str) :
    ∀ st : Run, (∀ f ∈ files, Settled lib m st.dir f) →
      ∃ st2, reconcileLoop lib m files st = Except.ok st2 ∧ st2.dir = st.dir ∧
        st2.updated = st.updated ∧ st2.log = st.log ++ files.map (settledLine m) := by
  induction files with
  | nil =>
    intro st _
    exact ⟨st, rfl, rfl, rfl, by simp⟩
  | cons g rest ih =>
    intro st hs
    have hstep := reconcileFile_settled lib m st g (hs g (by simp))
    obtain ⟨st2, h1, h2, h3, h4⟩ := ih
      { st with
        skipped := st.skipped + (if truthyUrl (mapGet m g) = none then 1 else 0)
        log := st.log ++ [settledLine m g] }
      (fun f hf => hs f (List.mem_cons_of_mem _ hf))
    refine ⟨st2, ?_, h2, h3, ?_⟩
    · unfold reconcileLoop
      rw [hstep]
      exact h1
    · rw [h4]
      simp

theorem reconcile_ok_loop (lib : JSONLib) (results : Results) (d : MetaDir)
    (recs : List UploadRecord) (files : List Str)
    (hsel : selectFiles results = some recs) (hlist : d.listing = some files) :
    reconcile lib results d
      = reconcileLoop lib (buildUrlMap recs) files
          { dir := d, updated := 0, skipped := 0, log := [] } := by
  simp [reconcile, hsel, hlist]

theorem completed_eq_ok (x : Except Run Run) (h : completed x = true) :
    x = Except.ok (finalRun x) := by
  cases x with
  | error e => simp [completed] at h
  | ok r => rfl

/-- The small `JSON` instance satisfies the round-trip contract. -/
theorem miniJSON_roundTrips : RoundTripsImage miniJSON := by
  intro o u
  refine ⟨[(imageKey, JsVal.str u)], ?_, by simp [getProp]⟩
  have hs : miniJSON.stringify (JsVal.obj (setProp o imageKey (JsVal.str u)))
      = imagePrefix ++ u ++ imageSuffix := by
    simp only [miniJSON, getProp_setProp_self]
  rw [hs]
  have h1 : ¬ (imagePrefix ++ u ++ imageSuffix = "[]".toList) := by
    intro h
    have h2 := congrArg List.head? h
    simp [imagePrefix] at h2
  have h2 : List.isPrefixOf imagePrefix (imagePrefix ++ u ++ imageSuffix) = true := by
    rw [List.isPrefixOf_iff_prefix, List.append_assoc]
    exact List.prefix_append _ _
  have h3 : List.isSuffixOf imageSuffix (imagePrefix ++ u ++ imageSuffix) = true := by
    rw [List.isSuffixOf_iff_suffix]
    exact List.suffix_append _ _
  have h4 : (imagePrefix ++ u ++ imageSuffix).length
      = imagePrefix.length + u.length + imageSuffix.length := by
    simp only [List.length_append]
  have h5 : ((imagePrefix ++ u ++ imageSuffix).drop imagePrefix.length).take
      ((imagePrefix ++ u ++ imageSuffix).length - imagePrefix.length - imageSuffix.length) = u := by
    rw [h4, List.append_assoc, List.drop_left]
    have h6 : imagePrefix.length + u.length + imageSuffix.length - imagePrefix.length
        - imageSuffix.length = u.length := by omega
    rw [h6]
    exact List.take_left _ _
  have h7 : imagePrefix.length + imageSuffix.length
      ≤ (imagePrefix ++ u ++ imageSuffix).length := by omega
  simp only [miniJSON, h1, h2, h3, h7, h5, if_false, if_true, Bool.and_self, decide_True]

/-- The line that an iteration adds to the log names the entry of the iteration. -/
theorem reconcileFile_log (lib : JSONLib) (m : UrlMap) (st st1 : Run) (g : Str)
    (h : reconcileFile lib m st g = Except.ok st1) :
    ∃ line, st1.log = st.log ++ [line] ∧
      (line = LogLine.skip g ∨ line = LogLine.upToDate g ∨ line = LogLine.updated g) := by
  rcases reconcileFile_ok_cases lib m st st1 g h with ⟨_, h1⟩ | ⟨u, c, v, img, _, _, _, _, h1⟩
  · exact ⟨LogLine.skip g, by rw [h1], Or.inl rfl⟩
  · rcases h1 with ⟨_, h2⟩ | ⟨_, w, _, _, h2⟩
    · exact ⟨LogLine.upToDate g, by rw [h2], Or.inr (Or.inl rfl)⟩
    · exact ⟨LogLine.updated g, by rw [h2], Or.inr (Or.inr rfl)⟩

/-- An iteration neither changes a settled entry nor reports it as updated. -/
theorem reconcileFile_settled_frame (lib : JSONLib) (m : UrlMap) (st st1 : Run) (g f : Str)
    (h : reconcileFile lib m st g = Except.ok st1) (hs : Settled lib m st.dir f) :
    st1.dir.content f = st.dir.content f ∧
      (LogLine.updated f ∈ st1.log → LogLine.updated f ∈ st.log) := by
  by_cases hgf : g = f
  · subst hgf
    have h2 := reconcileFile_settled lib m st g hs
    rw [h2] at h
    rw [← Except.ok.inj h]
    refine ⟨rfl, ?_⟩
    intro hmem
    simp only [List.mem_append, List.mem_singleton] at hmem
    rcases hmem with hmem | hmem
    · exact hmem
    · unfold settledLine at hmem
      cases hurl : truthyUrl (mapGet m g) with
      | none => rw [hurl] at hmem; cases hmem
      | some u => rw [hurl] at hmem; cases hmem
  · refine ⟨reconcileFile_content_other lib m st st1 g f h hgf, ?_⟩
    obtain ⟨line, hlog, hline⟩ := reconcileFile_log lib m st st1 g h
    intro hmem
    rw [hlog] at hmem
    simp only [List.mem_append, List.mem_singleton] at hmem
    rcases hmem with hmem | hmem
    · exact hmem
    · rcases hline with hl | hl | hl
      · rw [hl] at hmem; cases hmem
      · rw [hl] at hmem; cases hmem
      · rw [hl] at hmem
        exact absurd (LogLine.updated.inj hmem).symm hgf

/-- A completed loop neither changes a settled entry nor reports it as updated. -/
theorem reconcileLoop_settled_frame (lib : JSONLib) (m : UrlMap) (f : Str) (files : List Str) :
    ∀ st st2 : Run, reconcileLoop lib m files st = Except.ok st2 →
      Settled lib m st.dir f →
      st2.dir.content f = st.dir.content f ∧
        (LogLine.updated f ∈ st2.log → LogLine.updated f ∈ st.log) := by
  induction files with
  | nil =>
    intro st st2 h _
    rw [← Except.ok.inj h]
    exact ⟨rfl, fun x => x⟩
  | cons g rest ih =>
    intro st st2 h hs
    obtain ⟨st1, h1, h2⟩ := reconcileLoop_cons_ok lib m g rest st st2 h
    obtain ⟨hc1, hl1⟩ := reconcileFile_settled_frame lib m st st1 g f h1 hs
    obtain ⟨hc2, hl2⟩ := ih st1 st2 h2 (reconcileFile_preserves_settled lib m st st1 g f h1 hs)
    exact ⟨hc2.trans hc1, fun x => hl1 (hl2 x)⟩

theorem reconcileLoop_content_not_mem (lib : JSONLib) (m : UrlMap) (f : Str)
    (files : List Str) :
    ∀ st st2 : Run, reconcileLoop lib m files st = Except.ok st2 → f ∉ files →
      st2.dir.content f = st.dir.content f := by
  induction files with
  | nil =>
    intro st st2 h _
    rw [← Except.ok.inj h]
  | cons g rest ih =>
    intro st st2 h hf
    obtain ⟨st1, h1, h2⟩ := reconcileLoop_cons_ok lib m g rest st st2 h
    have hgf : g ≠ f := fun e => hf (by simp [e])
    have hrest : f ∉ rest := fun e => hf (List.mem_cons_of_mem _ e)
    rw [ih st1 st2 h2 hrest, reconcileFile_content_other lib m st st1 g f h1 hgf]

/-- In a completed loop over distinct entries, each entry is visited by one
iteration, which finds the content the entry had before the loop and leaves the
content it has after the loop. -/
theorem reconcileLoop_visit (lib : JSONLib) (m : UrlMap) (f : Str) (files : List Str) :
    ∀ st st2 : Run, reconcileLoop lib m files st = Except.ok st2 → files.Nodup → f ∈ files →
      ∃ sa sb, reconcileFile lib m sa f = Except.ok sb ∧
        sa.dir.content f = st.dir.content f ∧ st2.dir.content f = sb.dir.content f := by
  induction files with
  | nil => intro st st2 _ _ hf; simp at hf
  | cons g rest ih =>
    intro st st2 h hnd hf
    obtain ⟨st1, h1, h2⟩ := reconcileLoop_cons_ok lib m g rest st st2 h
    have hg : g ∉ rest := (List.nodup_cons.1 hnd).1
    have hrest : rest.Nodup := (List.nodup_cons.1 hnd).2
    by_cases hmem : f ∈ rest
    · have hgf : g ≠ f := fun e => hg (e ▸ hmem)
      obtain ⟨sa, sb, h3, h4, h5⟩ := ih st1 st2 h2 hrest hmem
      exact ⟨sa, sb, h3, h4.trans (reconcileFile_content_other lib m st st1 g f h1 hgf), h5⟩
    · have hfg : f = g := by
        rcases List.mem_cons.1 hf with h3 | h3
        · exact h3
        · exact absurd h3 hmem
      subst hfg
      exact ⟨st, st1, h1, rfl, reconcileLoop_content_not_mem lib m f rest st1 st2 h2 hmem⟩

/-- The loop when a single key `b` has a URL: every other entry is skipped, and the
entry `b`, holding an object whose `image` is not the URL, is rewritten. -/
theorem reconcileLoop_single_key (lib : JSONLib) (m : UrlMap) (b u c : Str)
    (o : List (Str × JsVal))
    (hb : truthyUrl (mapGet m b) = some u)
    (hother : ∀ f, f ≠ b → truthyUrl (mapGet m f) = none)
    (hp : lib.parse c = some (JsVal.obj o))
    (hne : strictEqualsUrl (getProp o imageKey) u = false)
    (files : List Str) :
    ∀ st : Run, files.Nodup →
      (b ∈ files → st.dir.content b = some c ∧ st.dir.writable b = true) →
      ∃ st2, reconcileLoop lib m files st = Except.ok st2 ∧
        st2.updated = st.updated + (if b ∈ files then 1 else 0) ∧
        st2.skipped = st.skipped + (files.length - (if b ∈ files then 1 else 0)) ∧
        st2.dir.content b =
          (if b ∈ files then
            some (lib.stringify (JsVal.obj (setProp o imageKey (JsVal.str u))))
          else st.dir.content b) ∧
        ∀ f, f ≠ b → st2.dir.content f = st.dir.content f := by
  induction files with
  | nil =>
    intro st _ _
    exact ⟨st, rfl, by simp, by simp, by simp, fun _ _ => rfl⟩
  | cons g rest ih =>
    intro st hnd hcont
    have hg : g ∉ rest := (List.nodup_cons.1 hnd).1
    have hrest : rest.Nodup := (List.nodup_cons.1 hnd).2
    by_cases hgb : g = b
    · subst hgb
      obtain ⟨hc, hw⟩ := hcont (by simp)
      have hstep : reconcileFile lib m st g = Except.ok
          { st with
            dir := st.dir.write g (lib.stringify (JsVal.obj (setProp o imageKey (JsVal.str u))))
            log := st.log ++ [LogLine.updated g]
            updated := st.updated + 1 } := by
        simp [reconcileFile, hb, hc, hp, getImage, hne, setImage, hw]
      obtain ⟨st2, h1, h2, h3, h4, h5⟩ := ih
        { st with
          dir := st.dir.write g (lib.stringify (JsVal.obj (setProp o imageKey (JsVal.str u))))
          log := st.log ++ [LogLine.updated g]
          updated := st.updated + 1 } hrest (fun x => absurd x hg)
      refine ⟨st2, ?_, ?_, ?_, ?_, ?_⟩
      · unfold reconcileLoop
        rw [hstep]
        exact h1
      · rw [h2]
        simp [hg]
      · rw [h3]
        simp [hg]
      · rw [h4]
        simp [hg, write_content_self]
      · intro f hf
        rw [h5 f hf]
        exact write_content_other st.dir g f _ (fun e => hf e.symm)
    · have hstep : reconcileFile lib m st g = Except.ok
          { st with skipped := st.skipped + 1, log := st.log ++ [LogLine.skip g] } := by
        simp [reconcileFile, hother g hgb]
      have hmem : b ∈ g :: rest ↔ b ∈ rest := by
        constructor
        · intro x
          rcases List.mem_cons.1 x with h3 | h3
          · exact absurd h3.symm hgb
          · exact h3
        · intro x
          exact List.mem_cons_of_mem _ x
      obtain ⟨st2, h1, h2, h3, h4, h5⟩ := ih
        { st with skipped := st.skipped + 1, log := st.log ++ [LogLine.skip g] } hrest
        (fun x => hcont (hmem.2 x))
      refine ⟨st2, ?_, ?_, ?_, ?_, ?_⟩
      · unfold reconcileLoop
        rw [hstep]
        exact h1
      · rw [h2]
        simp only [hmem]
      · rw [h3]
        simp only [hmem, List.length_cons]
        by_cases hbr : b ∈ rest
        · have hpos : 0 < rest.length := List.length_pos_of_mem hbr
          simp only [hbr, if_true]
          omega
        · simp only [hbr, if_false]
          omega
      · rw [h4]
        simp only [hmem]
      · intro f hf
        exact h5 f hf

/-! ## Claims -/

/-- C1: the Reconciler's join key `fileName.replace(/\.[^.]+$/, "")` strips only the
final extension: the key of `p ++ "." ++ e` is `p` for every non-empty `e` without a
`.`; a name without a `.` or ending in `.` is its own key; `cat.final.jpg` has key
`cat.final`, and the lookup of a metadata entry named `cat.final` in the map built
from that record finds the record's URL. -/
theorem stripExt_strips_final_extension :
    (∀ p e : Str, e ≠ [] → '.' ∉ e → stripExt (p ++ '.' :: e) = p) ∧
    (∀ n : Str, ('.' ∉ n ∨ n.getLast? = some '.') → stripExt n = n) ∧
    stripExt "cat.final.jpg".toList = "cat.final".toList ∧
    (∀ u : Str,
      mapGet (buildUrlMap [{ fileName := "cat.final.jpg".toList, url := u }])
        "cat.final".toList = some u) := by
  refine ⟨stripExt_append_ext, ?_, by decide, ?_⟩
  · intro n h
    rcases h with h | h
    · exact stripExt_no_dot n h
    · exact stripExt_ends_in_dot n h
  · intro u
    have h : stripExt "cat.final.jpg".toList = "cat.final".toList := by decide
    simp only [buildUrlMap, List.foldl, h]
    exact mapGet_mapSet_self [] _ u

/-- The join key at concrete names: `photo.png` has key `photo`, `README` and
`archive.` are their own keys. -/
theorem stripExt_strips_final_extension_witness :
    stripExt ("photo".toList ++ '.' :: "png".toList) = "photo".toList ∧
    stripExt "README".toList = "README".toList ∧
    stripExt "archive.".toList = "archive.".toList :=
  ⟨stripExt_strips_final_extension.1 "photo".toList "png".toList (by decide) (by decide),
   stripExt_strips_final_extension.2.1 "README".toList (Or.inl (by decide)),
   stripExt_strips_final_extension.2.1 "archive.".toList (Or.inr (by decide))⟩

/-- C4, at a failing input: the Scanner accepts `img.png.v2.png`; the Optimizer's
output name for it is `img.v2.png.jpg`, because `replace` removes the first
occurrence of `.png`, while its base name followed by `.jpg` is `img.png.v2.jpg`. -/
theorem outputFileName_removes_first_occurrence :
    isSupported "img.png.v2.png".toList = true ∧
    outputFileName "img.png.v2.png".toList = "img.v2.png.jpg".toList ∧
    stripExt "img.png.v2.png".toList ++ ".jpg".toList = "img.png.v2.jpg".toList ∧
    outputFileName "img.png.v2.png".toList
      ≠ stripExt "img.png.v2.png".toList ++ ".jpg".toList := by
  decide

/-- C5 as stated fails: the Scanner returns the two distinct paths `images/a.png` and
`images/a.jpg` from the listing `a.png`, `a.jpg`, and the Optimizer's output path for
both is `out/a.jpg`; a run in which both succeed writes that path twice. -/
theorem outputPath_collision :
    getImageFiles entryPaths (fun _ => some ["a.png".toList, "a.jpg".toList]) "images".toList
      = ["images/a.png".toList, "images/a.jpg".toList] ∧
    "images/a.png".toList ≠ "images/a.jpg".toList ∧
    outputPath entryPaths "out".toList "images/a.png".toList = "out/a.jpg".toList ∧
    outputPath entryPaths "out".toList "images/a.jpg".toList = "out/a.jpg".toList ∧
    (optimizeLoop entryPaths "out".toList
        [("images/a.png".toList, Outcome.written 900 300),
         ("images/a.jpg".toList, Outcome.written 800 200)] OptState.init).writes
      = [("out/a.jpg".toList, 300), ("out/a.jpg".toList, 200)] := by
  decide

/-- C5, amended: for two scanned images whose file names contain their extension
text only at the end, and an output directory in which `path.join` keeps distinct
entry names apart, the output paths are equal exactly when the two names have the
same base name; so images with different base names never share an output file. -/
theorem outputPath_eq_iff_same_key (lib : PathLib) (outputDir path1 path2 : Str)
    (hjoin : JoinSeparatesEntries lib outputDir)
    (hs1 : '/' ∉ lib.basename path1) (hs2 : '/' ∉ lib.basename path2)
    (h1 : isSupported (lib.basename path1) = true)
    (h2 : isSupported (lib.basename path2) = true)
    (ho1 : extensionOnlyFinal (lib.basename path1) = true)
    (ho2 : extensionOnlyFinal (lib.basename path2) = true) :
    outputPath lib outputDir path1 = outputPath lib outputDir path2 ↔
      stripExt (lib.basename path1) = stripExt (lib.basename path2) := by
  unfold outputPath
  rw [outputFileName_eq_key _ hs1 h1 ho1, outputFileName_eq_key _ hs2 h2 ho2]
  constructor
  · intro h
    exact List.append_cancel_right
      (hjoin _ _ (entryName_key_jpg _ hs1 h1) (entryName_key_jpg _ hs2 h2) h)
  · intro h
    rw [h]

/-- The output paths of `images/cat.final.jpg` and `images/dog.png` differ, their
base names `cat.final` and `dog` being different. -/
theorem outputPath_eq_iff_same_key_witness :
    outputPath entryPaths "out".toList "images/cat.final.jpg".toList
      ≠ outputPath entryPaths "out".toList "images/dog.png".toList := by
  intro h
  have hiff := outputPath_eq_iff_same_key entryPaths "out".toList
    "images/cat.final.jpg".toList "images/dog.png".toList
    (fun a b _ _ hab => by
      have h3 : "out".toList ++ '/' :: a = "out".toList ++ '/' :: b := hab
      have h4 := List.append_cancel_left h3
      exact (List.cons.inj h4).2)
    (by decide) (by decide) (by decide) (by decide) (by decide) (by decide)
  exact absurd (hiff.1 h) (by decide)

/-- C6: the Scanner `getImageFiles` returns, for a readable directory with listing
`L`, the entries of `L` whose extension is, up to the case of its letters, one of
`.jpg`, `.jpeg`, `.png`, `.webp`, `.gif`, `.bmp`, in listing order (a sub-list of
`L`), each joined to the directory; it returns the empty list when no entry has such
an extension and when the directory cannot be read.  For an entry name (no `/`) the
extension is the final segment from the last `.` on, provided a non-empty stem
stands before that `.`. -/
theorem getImageFiles_spec (lib : PathLib) (readdir : Str → Option (List Str)) (d : Str) :
    (∀ L, readdir d = some L →
      getImageFiles lib readdir d =
        (L.filter (fun f =>
          [".jpg".toList, ".jpeg".toList, ".png".toList, ".webp".toList, ".gif".toList,
            ".bmp".toList].any (fun t => caseVariant (extname f) t))).map
          (fun f => lib.join d f) ∧
      (L.filter (fun f =>
          [".jpg".toList, ".jpeg".toList, ".png".toList, ".webp".toList, ".gif".toList,
            ".bmp".toList].any (fun t => caseVariant (extname f) t))).Sublist L) ∧
    (∀ L, readdir d = some L →
      (∀ f ∈ L, ∀ t ∈ [".jpg".toList, ".jpeg".toList, ".png".toList, ".webp".toList,
          ".gif".toList, ".bmp".toList], caseVariant (extname f) t = false) →
        getImageFiles lib readdir d = []) ∧
    (readdir d = none → getImageFiles lib readdir d = []) ∧
    (∀ f : Str, '/' ∉ f →
      ([".jpg".toList, ".jpeg".toList, ".png".toList, ".webp".toList, ".gif".toList,
          ".bmp".toList].any (fun t => caseVariant (extname f) t) = true ↔
        ∃ stem ext, f = stem ++ '.' :: ext ∧ stem ≠ [] ∧ '.' ∉ ext ∧
          ["jpg".toList, "jpeg".toList, "png".toList, "webp".toList, "gif".toList,
            "bmp".toList].any (fun t => caseVariant ext t) = true)) := by
  have hfun : isSupported = fun f =>
      [".jpg".toList, ".jpeg".toList, ".png".toList, ".webp".toList, ".gif".toList,
        ".bmp".toList].any (fun t => caseVariant (extname f) t) :=
    funext isSupported_eq_any
  refine ⟨?_, ?_, ?_, ?_⟩
  · intro L hL
    refine ⟨?_, List.filter_sublist L⟩
    simp only [getImageFiles, hL]
    rw [hfun]
  · intro L hL hall
    simp only [getImageFiles, hL]
    have hnil : L.filter isSupported = [] := by
      rw [List.filter_eq_nil_iff]
      intro f hf
      rw [isSupported_eq_any]
      simp only [List.any_eq_true, not_exists, not_and, Bool.not_eq_true]
      intro t ht
      exact hall f hf t ht
    rw [hnil]
    rfl
  · intro hnone
    simp only [getImageFiles, hnone]
  · intro f hs
    rw [← isSupported_eq_any]
    exact isSupported_iff_shape f hs

/-- The Scanner on a listing with one entry of each of the six formats, in mixed
case, and the unsupported entries `notes.txt`, `.gif`, `g.jpgx`, `h.` and `jpg`; on
a listing of unsupported entries; on an unreadable directory; and the shape of the
accepted name `c.Png`. -/
theorem getImageFiles_spec_witness :
    getImageFiles entryPaths
        (fun _ => some ["a.JPG".toList, "notes.txt".toList, "b.jpeg".toList, ".gif".toList,
          "c.Png".toList, "g.jpgx".toList, "d.webp".toList, "h.".toList, "e.GIF".toList,
          "jpg".toList, "f.bMp".toList])
        "images".toList
      = ["images/a.JPG".toList, "images/b.jpeg".toList, "images/c.Png".toList,
          "images/d.webp".toList, "images/e.GIF".toList, "images/f.bMp".toList] ∧
    getImageFiles entryPaths (fun _ => some ["notes.txt".toList, "Makefile".toList])
        "images".toList = [] ∧
    getImageFiles entryPaths (fun _ => none) "images".toList = [] ∧
    (∃ stem ext, "c.Png".toList = stem ++ '.' :: ext ∧ stem ≠ [] ∧ '.' ∉ ext ∧
      ["jpg".toList, "jpeg".toList, "png".toList, "webp".toList, "gif".toList,
        "bmp".toList].any (fun t => caseVariant ext t) = true) :=
  ⟨((getImageFiles_spec entryPaths
        (fun _ => some ["a.JPG".toList, "notes.txt".toList, "b.jpeg".toList, ".gif".toList,
          "c.Png".toList, "g.jpgx".toList, "d.webp".toList, "h.".toList, "e.GIF".toList,
          "jpg".toList, "f.bMp".toList])
        "images".toList).1 _ rfl).1.trans (by decide),
   (getImageFiles_spec entryPaths (fun _ => some ["notes.txt".toList, "Makefile".toList])
        "images".toList).2.1 _ rfl (by decide),
   (getImageFiles_spec entryPaths (fun _ => none) "images".toList).2.2.1 rfl,
   ((getImageFiles_spec entryPaths (fun _ => none) "images".toList).2.2.2
        "c.Png".toList (by decide)).1 (by decide)⟩

/-- C10: on a non-empty list of scanned files with any per-file outcomes, the
Optimizer reaches its summary; the loop has visited every file in listing order,
counted the files that were written as succeeded and every other file as failed,
so that `successCount + failCount` is the number of files; the aggregate original
and optimized sizes are the sums over the succeeded files only. -/
theorem optimizeAllImages_counts (lib : PathLib) (outputDir : Str)
    (items : List (Str × Outcome)) (h : items ≠ []) :
    ∃ st, optimizeAllImages lib outputDir items = some st ∧
      st.visited = items.map (fun it => lib.basename it.1) ∧
      st.successCount = (items.filter (fun it => it.2.succeeded)).length ∧
      st.failCount = (items.filter (fun it => !it.2.succeeded)).length ∧
      st.successCount + st.failCount = items.length ∧
      st.totalOriginalSize
        = ((items.filter (fun it => it.2.succeeded)).map (fun it => it.2.originalBytes)).sum ∧
      st.totalOptimizedSize
        = ((items.filter (fun it => it.2.succeeded)).map (fun it => it.2.optimizedBytes)).sum := by
  have hlen : ¬ (items.length = 0) := fun h0 => h (List.length_eq_zero.1 h0)
  refine ⟨optimizeLoop lib outputDir items OptState.init, ?_, ?_⟩
  · simp only [optimizeAllImages, hlen, if_false]
  · obtain ⟨h1, h2, h3, h4, h5⟩ := optimizeLoop_spec lib outputDir items OptState.init
    have hsum := filter_length_add_filter_not (fun it : Str × Outcome => it.2.succeeded) items
    refine ⟨?_, ?_, ?_, ?_, ?_, ?_⟩
    · rw [h1]; simp [OptState.init]
    · rw [h2]; simp [OptState.init]
    · rw [h3]; simp [OptState.init]
    · rw [h2, h3]; simp only [OptState.init]; omega
    · rw [h4]; simp [OptState.init]
    · rw [h5]; simp [OptState.init]

/-- A batch of four files, one per kind of outcome: one success, three failures. -/
theorem optimizeAllImages_counts_witness :
    ∃ st, optimizeAllImages entryPaths "out".toList
        [("images/a.png".toList, Outcome.written 1000 400),
         ("images/b.gif".toList, Outcome.noData 50),
         ("images/c.bmp".toList, Outcome.statThrows),
         ("images/d.jpg".toList, Outcome.writeThrows 70 30)] = some st ∧
      st.successCount = 1 ∧ st.failCount = 3 ∧
      st.totalOriginalSize = 1000 ∧ st.totalOptimizedSize = 400 := by
  obtain ⟨st, h0, _, h2, h3, _, h5, h6⟩ := optimizeAllImages_counts entryPaths "out".toList
    [("images/a.png".toList, Outcome.written 1000 400),
     ("images/b.gif".toList, Outcome.noData 50),
     ("images/c.bmp".toList, Outcome.statThrows),
     ("images/d.jpg".toList, Outcome.writeThrows 70 30)] (by simp)
  exact ⟨st, h0, h2.trans (by decide), h3.trans (by decide), h5.trans (by decide),
    h6.trans (by decide)⟩


/-- C2 as stated fails: a metadata entry `cat` holding the JSON array `[]` and a
record for `cat.jpg`.  The first run completes, counts 1 updated and leaves `[]` (the
`image` property set on the array is not serialised); the second run completes and
again counts 1 updated, not 0. -/
theorem reconcile_array_updated_twice :
    completed (reconcile miniJSON
      (Results.ofFiles [{ fileName := "cat.jpg".toList, url := "ar://abc".toList }])
      (MetaDir.ofEntries [("cat".toList, "[]".toList)])) = true ∧
    (finalRun (reconcile miniJSON
      (Results.ofFiles [{ fileName := "cat.jpg".toList, url := "ar://abc".toList }])
      (MetaDir.ofEntries [("cat".toList, "[]".toList)]))).updated = 1 ∧
    (finalRun (reconcile miniJSON
      (Results.ofFiles [{ fileName := "cat.jpg".toList, url := "ar://abc".toList }])
      (MetaDir.ofEntries [("cat".toList, "[]".toList)]))).dir.content "cat".toList
        = some "[]".toList ∧
    completed (reconcile miniJSON
      (Results.ofFiles [{ fileName := "cat.jpg".toList, url := "ar://abc".toList }])
      (finalRun (reconcile miniJSON
        (Results.ofFiles [{ fileName := "cat.jpg".toList, url := "ar://abc".toList }])
        (MetaDir.ofEntries [("cat".toList, "[]".toList)]))).dir) = true ∧
    (finalRun (reconcile miniJSON
      (Results.ofFiles [{ fileName := "cat.jpg".toList, url := "ar://abc".toList }])
      (finalRun (reconcile miniJSON
        (Results.ofFiles [{ fileName := "cat.jpg".toList, url := "ar://abc".toList }])
        (MetaDir.ofEntries [("cat".toList, "[]".toList)]))).dir)).updated = 1 := by
  decide

/-- C2, amended: when `JSON` reads back the `image` string of an object it has
serialised, and no metadata entry that has a URL holds a JSON array, a second run
after a completed first run with the same results file completes, leaves the
directory as the first run left it (every file byte-identical), counts 0 updated,
and prints `already up to date` for every entry that has a URL and a skip for every
other entry. -/
theorem reconcile_idempotent (lib : JSONLib) (results : Results) (recs : List UploadRecord)
    (d : MetaDir) (files : List Str) (r1 : Run)
    (hrt : RoundTripsImage lib)
    (hsel : selectFiles results = some recs) (hlist : d.listing = some files)
    (hobj : ∀ f ∈ files, HoldsNoArray lib (buildUrlMap recs) d f)
    (hrun : reconcile lib results d = Except.ok r1) :
    ∃ r2, reconcile lib results r1.dir = Except.ok r2 ∧ r2.dir = r1.dir ∧ r2.updated = 0 ∧
      r2.log = files.map (settledLine (buildUrlMap recs)) := by
  rw [reconcile_ok_loop lib results d recs files hsel hlist] at hrun
  have hlist1 : r1.dir.listing = some files := by
    rw [reconcileLoop_listing lib _ files _ r1 hrun]
    exact hlist
  have hsettled := reconcileLoop_settles lib hrt (buildUrlMap recs) files _ r1 hrun hobj
  obtain ⟨r2, h1, h2, h3, h4⟩ := reconcileLoop_on_settled lib (buildUrlMap recs) files
    { dir := r1.dir, updated := 0, skipped := 0, log := [] } hsettled
  refine ⟨r2, ?_, h2, h3, ?_⟩
  · rw [reconcile_ok_loop lib results r1.dir recs files hsel hlist1]
    exact h1
  · rw [h4]
    simp

/-- Two runs on a directory with the entries `cat` (an object whose `image` is
`old`) and `notes` (no URL), with a record for `cat.jpg`: the second run changes
nothing and counts 0 updated. -/
theorem reconcile_idempotent_witness :
    ∃ r2, reconcile miniJSON
        (Results.ofFiles [{ fileName := "cat.jpg".toList, url := "ar://abc".toList }])
        (finalRun (reconcile miniJSON
          (Results.ofFiles [{ fileName := "cat.jpg".toList, url := "ar://abc".toList }])
          (MetaDir.ofEntries
            [("cat".toList, imagePrefix ++ "old".toList ++ imageSuffix),
             ("notes".toList, "to do".toList)]))).dir = Except.ok r2 ∧
      r2.updated = 0 ∧
      r2.log = [LogLine.upToDate "cat".toList, LogLine.skip "notes".toList] := by
  obtain ⟨r2, h1, _, h3, h4⟩ := reconcile_idempotent miniJSON
    (Results.ofFiles [{ fileName := "cat.jpg".toList, url := "ar://abc".toList }])
    [{ fileName := "cat.jpg".toList, url := "ar://abc".toList }]
    (MetaDir.ofEntries
      [("cat".toList, imagePrefix ++ "old".toList ++ imageSuffix),
       ("notes".toList, "to do".toList)])
    ["cat".toList, "notes".toList]
    (finalRun (reconcile miniJSON
      (Results.ofFiles [{ fileName := "cat.jpg".toList, url := "ar://abc".toList }])
      (MetaDir.ofEntries
        [("cat".toList, imagePrefix ++ "old".toList ++ imageSuffix),
         ("notes".toList, "to do".toList)])))
    miniJSON_roundTrips rfl rfl
    (by
      intro f hf u c e x hu hc hp
      simp only [List.mem_cons, List.mem_singleton, List.not_mem_nil, or_false] at hf
      rcases hf with hf | hf
      · subst hf
        have hc2 : (MetaDir.ofEntries
            [("cat".toList, imagePrefix ++ "old".toList ++ imageSuffix),
             ("notes".toList, "to do".toList)]).content "cat".toList
            = some (imagePrefix ++ "old".toList ++ imageSuffix) := by decide
        rw [hc2] at hc
        rw [← Option.some.inj hc] at hp
        have hp2 : miniJSON.parse (imagePrefix ++ "old".toList ++ imageSuffix)
            = some (JsVal.obj [(imageKey, JsVal.str "old".toList)]) := by rfl
        rw [hp2] at hp
        cases hp
      · subst hf
        have hu2 : truthyUrl (mapGet (buildUrlMap
            [{ fileName := "cat.jpg".toList, url := "ar://abc".toList }]) "notes".toList)
            = none := by decide
        rw [hu2] at hu
        cases hu)
    (completed_eq_ok _ (by decide))
  exact ⟨r2, h1, h3, h4.trans (by decide)⟩


/-- C3 as stated fails: with a record for `cat.jpg` and a metadata entry named
`cat.json` whose `image` is `old`, the run skips the entry (the lookup uses the whole
entry name), counts 0 updated and leaves the file as it was. -/
theorem reconcile_json_entry_skipped :
    lookupUrl [{ fileName := "cat.jpg".toList, url := "ar://abc".toList }] "cat.json".toList
      = none ∧
    completed (reconcile miniJSON
      (Results.ofFiles [{ fileName := "cat.jpg".toList, url := "ar://abc".toList }])
      (MetaDir.ofEntries
        [("cat.json".toList, imagePrefix ++ "old".toList ++ imageSuffix)])) = true ∧
    (finalRun (reconcile miniJSON
      (Results.ofFiles [{ fileName := "cat.jpg".toList, url := "ar://abc".toList }])
      (MetaDir.ofEntries
        [("cat.json".toList, imagePrefix ++ "old".toList ++ imageSuffix)]))).updated = 0 ∧
    (finalRun (reconcile miniJSON
      (Results.ofFiles [{ fileName := "cat.jpg".toList, url := "ar://abc".toList }])
      (MetaDir.ofEntries
        [("cat.json".toList, imagePrefix ++ "old".toList ++ imageSuffix)]))).log
      = [LogLine.skip "cat.json".toList] ∧
    (finalRun (reconcile miniJSON
      (Results.ofFiles [{ fileName := "cat.jpg".toList, url := "ar://abc".toList }])
      (MetaDir.ofEntries
        [("cat.json".toList, imagePrefix ++ "old".toList ++ imageSuffix)]))).dir.content
        "cat.json".toList
      = some (imagePrefix ++ "old".toList ++ imageSuffix) := by
  decide

/-- C3, amended: metadata entries are matched by their whole name.  For every base
name `b` and non-empty URL `u`, when the results file holds the single record with
file name `b ++ ".jpg"` and URL `u`, and the metadata directory (distinct entry
names) has a writable entry named exactly `b` holding a JSON object whose `image` is
not `u`, the run completes, rewrites that entry as the serialisation of its object
with `image` set to `u`, counts exactly 1 updated, skips every other entry and
leaves every other file as it was. -/
theorem reconcile_updates_entry_named_by_key (lib : JSONLib) (b u c : Str) (d : MetaDir)
    (files : List Str) (o : List (Str × JsVal))
    (hu : u ≠ []) (hlist : d.listing = some files) (hnodup : files.Nodup) (hb : b ∈ files)
    (hc : d.content b = some c) (hw : d.writable b = true)
    (hp : lib.parse c = some (JsVal.obj o))
    (hne : strictEqualsUrl (getProp o imageKey) u = false) :
    ∃ r, reconcile lib (Results.ofFiles [{ fileName := b ++ ".jpg".toList, url := u }]) d
        = Except.ok r ∧
      r.updated = 1 ∧ r.skipped = files.length - 1 ∧
      r.dir.content b = some (lib.stringify (JsVal.obj (setProp o imageKey (JsVal.str u)))) ∧
      getProp (setProp o imageKey (JsVal.str u)) imageKey = some (JsVal.str u) ∧
      ∀ f, f ≠ b → r.dir.content f = d.content f := by
  have hkey : stripExt (b ++ ".jpg".toList) = b :=
    stripExt_append_ext b "jpg".toList (by decide) (by decide)
  have hmap : buildUrlMap [{ fileName := b ++ ".jpg".toList, url := u }] = [(b, u)] := by
    simp only [buildUrlMap, List.foldl, hkey, mapSet]
  have hurl : truthyUrl (mapGet [(b, u)] b) = some u := by
    cases u with
    | nil => exact absurd rfl hu
    | cons a t => simp [mapGet, truthyUrl]
  have hother : ∀ f, f ≠ b → truthyUrl (mapGet [(b, u)] f) = none := by
    intro f hf
    have h1 : ¬ (b = f) := fun e => hf e.symm
    simp [mapGet, truthyUrl, h1]
  obtain ⟨r, h1, h2, h3, h4, h5⟩ := reconcileLoop_single_key lib [(b, u)] b u c o hurl hother
    hp hne files { dir := d, updated := 0, skipped := 0, log := [] } hnodup
    (fun _ => ⟨hc, hw⟩)
  refine ⟨r, ?_, ?_, ?_, ?_, getProp_setProp_self o imageKey _, h5⟩
  · rw [reconcile_ok_loop lib
        (Results.ofFiles [{ fileName := b ++ ".jpg".toList, url := u }]) d
        [{ fileName := b ++ ".jpg".toList, url := u }] files rfl hlist, hmap]
    exact h1
  · rw [h2]
    simp [hb]
  · rw [h3]
    simp [hb]
  · rw [h4]
    simp [hb]

/-- A record for `cat.jpg` and the entries `cat` (an object whose `image` is `old`)
and `notes`: the run rewrites `cat` with the URL, counts 1 updated and 1 skipped. -/
theorem reconcile_updates_entry_named_by_key_witness :
    ∃ r, reconcile miniJSON
        (Results.ofFiles [{ fileName := "cat".toList ++ ".jpg".toList, url := "ar://abc".toList }])
        (MetaDir.ofEntries
          [("cat".toList, imagePrefix ++ "old".toList ++ imageSuffix),
           ("notes".toList, "to do".toList)]) = Except.ok r ∧
      r.updated = 1 ∧ r.skipped = 1 ∧
      r.dir.content "cat".toList = some (imagePrefix ++ "ar://abc".toList ++ imageSuffix) := by
  obtain ⟨r, h1, h2, h3, h4, _, _⟩ := reconcile_updates_entry_named_by_key miniJSON
    "cat".toList "ar://abc".toList (imagePrefix ++ "old".toList ++ imageSuffix)
    (MetaDir.ofEntries
      [("cat".toList, imagePrefix ++ "old".toList ++ imageSuffix),
       ("notes".toList, "to do".toList)])
    ["cat".toList, "notes".toList] [(imageKey, JsVal.str "old".toList)]
    (by decide) rfl (by decide) (by decide) (by decide) rfl rfl (by decide)
  exact ⟨r, h1, h2, h3, h4.trans (by decide)⟩

/-- C7 as stated fails at original size 0: with both sizes 0 (an Optimizer batch in
which every file failed, or sets of empty files in the Estimator) the quotient is
`0 / 0`, the value is `NaN`, which is neither `≥ 0` nor `≤ 100`, and the report is the
text `NaN`. -/
theorem savingsPercent_zero_sizes :
    savingsPercent 0 0 = JsNum.nan ∧
    jsLe (jsInt 0) (savingsPercent 0 0) = false ∧
    jsLe (savingsPercent 0 0) (jsInt 100) = false ∧
    reportedSavings 0 0 = some "NaN".toList := by
  decide

/-- C7, amended: for a positive original size and an optimized size that is at most
the original size, the value `(1 - optimizedSize / originalSize) * 100` is a finite
Number with `0 ≤ value ≤ 100`, and the reported text is the decimal rendering with 2
decimals of the integer `n ≤ 10000` for which `n / 100` is nearest to the value
(the larger one on a tie). -/
theorem savingsPercent_bounds (optimizedSize originalSize : Nat) (h0 : 0 < originalSize)
    (hle : optimizedSize ≤ originalSize) :
    jsLe (jsInt 0) (savingsPercent optimizedSize originalSize) = true ∧
    jsLe (savingsPercent optimizedSize originalSize) (jsInt 100) = true ∧
    ∃ num den n, savingsPercent optimizedSize originalSize = JsNum.fin false num den ∧
      0 < den ∧ n ≤ 10000 ∧
      reportedSavings optimizedSize originalSize = some (renderFixed 2 n) ∧
      2 * den * n ≤ 2 * num * 100 + den ∧ 2 * num * 100 + den < 2 * den * (n + 1) := by
  obtain ⟨num, den, hs, hd, hn⟩ := savingsPercent_fin optimizedSize originalSize h0 hle
  have hlt : num < 10 ^ 21 * den := by
    have : 100 * den < 10 ^ 21 * den := Nat.mul_lt_mul_of_pos_right (by decide) hd
    omega
  obtain ⟨hf1, hf2, hf3⟩ := toFixed_fin_nonneg 2 num den hd hlt
  refine ⟨?_, ?_, num, den, _, hs, hd, ?_, ?_, hf2, hf3⟩
  · rw [hs]
    simp [jsLe, jsInt, signedNum]
  · rw [hs]
    simp only [jsLe, jsInt, signedNum, Bool.false_eq_true, if_false, decide_eq_true_eq]
    push_cast
    omega
  · have h3 : (2 * num * 10 ^ 2 + den) / (2 * den) < 10001 := by
      rw [Nat.div_lt_iff_lt_mul (by omega)]
      have : 2 * num * 10 ^ 2 = 200 * num := by ring
      have h4 : 10001 * (2 * den) = 20002 * den := by ring
      omega
    omega
  · unfold reportedSavings
    rw [hs]
    exact hf1

/-- Original 1,000,000 bytes and optimized 400,000 bytes: the value is within the
bounds and the report is `60.00`. -/
theorem savingsPercent_bounds_witness :
    jsLe (jsInt 0) (savingsPercent 400000 1000000) = true ∧
    jsLe (savingsPercent 400000 1000000) (jsInt 100) = true ∧
    reportedSavings 400000 1000000 = some "60.00".toList :=
  ⟨(savingsPercent_bounds 400000 1000000 (by decide) (by decide)).1,
   (savingsPercent_bounds 400000 1000000 (by decide) (by decide)).2.1,
   by decide⟩

/-- C8 as stated fails: the quote `w = 10000000000499999` is rendered as
`10000.000001`, because `parseInt` rounds `w` to the double `10000000000500000` and
the quotient by `1e12` lies above the tie; `w / 10 ^ 12` is `10000.000000499999`,
whose rendering with 6 decimals is `10000.000000` both by truncation and by rounding
to nearest, and the rendered amount is more than half a unit of the sixth decimal
away from it. -/
theorem renderedCredits_not_exact :
    renderedCredits 10000000000499999 = some "10000.000001".toList ∧
    jsParseInt 10000000000499999 = JsNum.fin false 10000000000500000 1 ∧
    renderFixed 6 (10000000000499999 / 10 ^ 6) = "10000.000000".toList ∧
    renderFixed 6 ((10000000000499999 + 500000) / 10 ^ 6) = "10000.000000".toList ∧
    renderFixed 6 10000000001 = "10000.000001".toList ∧
    ¬ (10000000001 * 10 ^ 6 ≤ 10000000000499999 + 500000) := by
  decide

/-- C8, amended: for every quote `w` below `2 ^ 53` the rendered credit amount is the
decimal rendering with 6 decimals of an integer `n` with `|n * 10 ^ 6 - w| ≤ 500000`:
it is `w / 10 ^ 12` rounded to a nearest value with 6 decimals, to either neighbour
when `w` lies half way. -/
theorem renderedCredits_nearest (w : Nat) (hw : w < 2 ^ 53) :
    ∃ n, renderedCredits w = some (renderFixed 6 n) ∧
      n * 10 ^ 6 ≤ w + 500000 ∧ w ≤ n * 10 ^ 6 + 500000 := by
  obtain ⟨d, hd, hparse⟩ := jsParseInt_exact w hw
  by_cases h0 : w = 0
  · subst h0
    exact ⟨0, by decide, by decide, by decide⟩
  · have hw0 : 0 < w := Nat.pos_of_ne_zero h0
    have hb : 0 < d * 10 ^ 12 := Nat.mul_pos hd (by decide)
    have hlt : w * d * 1 < 2 ^ 14 * (d * 10 ^ 12) := by
      have h1 : w < 2 ^ 14 * 10 ^ 12 := Nat.lt_trans hw (by decide)
      have h2 := Nat.mul_lt_mul_of_pos_right h1 hd
      calc w * d * 1 = w * d := Nat.mul_one _
        _ < 2 ^ 14 * 10 ^ 12 * d := h2
        _ = 2 ^ 14 * (d * 10 ^ 12) := by ring
    obtain ⟨k, hk, hround⟩ := roundToDouble_spec false (w * d * 1) (d * 10 ^ 12) 14
      (by simpa using Nat.mul_pos hw0 hd) hb hlt (by decide)
    have hcred : creditsOf w
        = JsNum.fin false (roundHalfEven (w * d * 1 * 2 ^ k) (d * 10 ^ 12)) (2 ^ k) := by
      unfold creditsOf
      rw [hparse]
      simp only [jsDiv, jsInt, if_neg (show ¬ ((10:Nat) ^ 12 = 0) by decide), Bool.xor_false]
      exact hround
    obtain ⟨hnear1, hnear2⟩ := roundHalfEven_near (w * d * 1 * 2 ^ k) (d * 10 ^ 12) hb
    have hT : 2 ^ 39 ≤ 2 ^ k := Nat.pow_le_pow_right (by decide) (by omega)
    have hTpos : 0 < 2 ^ k := Nat.pow_pos (by decide)
    have hmle : roundHalfEven (w * d * 1 * 2 ^ k) (d * 10 ^ 12) ≤ 2 ^ 14 * 2 ^ k := by
      apply roundHalfEven_le _ _ _ hb
      calc w * d * 1 * 2 ^ k ≤ 2 ^ 14 * (d * 10 ^ 12) * 2 ^ k :=
            Nat.mul_le_mul_right _ (Nat.le_of_lt hlt)
        _ = 2 ^ 14 * 2 ^ k * (d * 10 ^ 12) := by ring
    have hfin : roundHalfEven (w * d * 1 * 2 ^ k) (d * 10 ^ 12) < 10 ^ 21 * 2 ^ k := by
      have : 2 ^ 14 * 2 ^ k < 10 ^ 21 * 2 ^ k := Nat.mul_lt_mul_of_pos_right (by decide) hTpos
      omega
    obtain ⟨hf1, hf2, hf3⟩ := toFixed_fin_nonneg 6 _ _ hTpos hfin
    generalize hm : roundHalfEven (w * d * 1 * 2 ^ k) (d * 10 ^ 12) = m at *
    generalize hT2 : 2 ^ k = T at *
    generalize hn : (2 * m * 10 ^ 6 + T) / (2 * T) = n at *
    -- cancel the common factor `d`
    have hc1 : 2 * (m * 10 ^ 12) ≤ 2 * (w * T) + 10 ^ 12 := by
      have h1 : d * (2 * (m * 10 ^ 12)) ≤ d * (2 * (w * T) + 10 ^ 12) := by
        calc d * (2 * (m * 10 ^ 12)) = 2 * (m * (d * 10 ^ 12)) := by ring
          _ ≤ 2 * (w * d * 1 * T) + d * 10 ^ 12 := hnear1
          _ = d * (2 * (w * T) + 10 ^ 12) := by ring
      exact Nat.le_of_mul_le_mul_left h1 hd
    have hc2 : 2 * (w * T) ≤ 2 * (m * 10 ^ 12) + 10 ^ 12 := by
      have h1 : d * (2 * (w * T)) ≤ d * (2 * (m * 10 ^ 12) + 10 ^ 12) := by
        calc d * (2 * (w * T)) = 2 * (w * d * 1 * T) := by ring
          _ ≤ 2 * (m * (d * 10 ^ 12)) + d * 10 ^ 12 := hnear2
          _ = d * (2 * (m * 10 ^ 12) + 10 ^ 12) := by ring
      exact Nat.le_of_mul_le_mul_left h1 hd
    have hf2a : 2 * (n * T) ≤ 2 * m * 10 ^ 6 + T := by
      calc 2 * (n * T) = 2 * T * n := by ring
        _ ≤ 2 * m * 10 ^ 6 + T := hf2
    have hf3a : 2 * m * 10 ^ 6 + T < 2 * (n * T) + 2 * T := by
      calc 2 * m * 10 ^ 6 + T < 2 * T * (n + 1) := hf3
        _ = 2 * (n * T) + 2 * T := by ring
    refine ⟨n, ?_, ?_, ?_⟩
    · unfold renderedCredits
      rw [hcred]
      exact hf1
    · by_contra hcon
      have h1 : w + 500001 ≤ n * 10 ^ 6 := by omega
      have h2 := Nat.mul_le_mul_right T h1
      have h3 : (w + 500001) * T = w * T + 500001 * T := by ring
      have h4 : n * 10 ^ 6 * T = 10 ^ 6 * (n * T) := by ring
      have h5 : 2 * (m * 10 ^ 12) = 10 ^ 6 * (2 * m * 10 ^ 6) := by ring
      omega
    · by_contra hcon
      have h1 : n * 10 ^ 6 + 500001 ≤ w := by omega
      have h2 := Nat.mul_le_mul_right T h1
      have h3 : (n * 10 ^ 6 + 500001) * T = 10 ^ 6 * (n * T) + 500001 * T := by ring
      have h5 : 2 * (m * 10 ^ 12) = 10 ^ 6 * (2 * m * 10 ^ 6) := by ring
      omega

/-- The quote `1234560000000` is rendered as `1.234560`. -/
theorem renderedCredits_nearest_witness :
    (∃ n, renderedCredits 1234560000000 = some (renderFixed 6 n) ∧
      n * 10 ^ 6 ≤ 1234560000000 + 500000 ∧ 1234560000000 ≤ n * 10 ^ 6 + 500000) ∧
    renderedCredits 1234560000000 = some "1.234560".toList :=
  ⟨renderedCredits_nearest 1234560000000 (by decide), by decide⟩

/-- C9 as stated fails in (ii): the entry `cat` holds the JSON array `[]`, has the
URL `ar://abc` and an `image` that is not that URL, so it is neither without URL nor
up to date; the run completes and reports it updated, and the `image` of the value
parsed from the file after the run is still not the URL. -/
theorem reconcile_array_image_not_set :
    lookupUrl [{ fileName := "cat.jpg".toList, url := "ar://abc".toList }] "cat".toList
      = some "ar://abc".toList ∧
    imageIsUrl miniJSON
      ((MetaDir.ofEntries [("cat".toList, "[]".toList)]).content "cat".toList)
      "ar://abc".toList = false ∧
    completed (reconcile miniJSON
      (Results.ofFiles [{ fileName := "cat.jpg".toList, url := "ar://abc".toList }])
      (MetaDir.ofEntries [("cat".toList, "[]".toList)])) = true ∧
    (finalRun (reconcile miniJSON
      (Results.ofFiles [{ fileName := "cat.jpg".toList, url := "ar://abc".toList }])
      (MetaDir.ofEntries [("cat".toList, "[]".toList)]))).log
      = [LogLine.updated "cat".toList] ∧
    imageIsUrl miniJSON
      ((finalRun (reconcile miniJSON
        (Results.ofFiles [{ fileName := "cat.jpg".toList, url := "ar://abc".toList }])
        (MetaDir.ofEntries [("cat".toList, "[]".toList)]))).dir.content "cat".toList)
      "ar://abc".toList = false := by
  decide

/-- C9, amended: for a completed run on a directory with distinct entry names,
(i) every file that has no URL, or whose content parses to a value whose `image`
already equals its URL, has the same content after the run and is not reported as
updated; (ii) every other listed file that holds a JSON object is rewritten as the
serialisation of that object with `image` set to the URL found for it, an object
that agrees with the parsed object on every property other than `image`. -/
theorem reconcile_frame (lib : JSONLib) (results : Results) (recs : List UploadRecord)
    (d : MetaDir) (files : List Str) (r : Run)
    (hsel : selectFiles results = some recs) (hlist : d.listing = some files)
    (hnodup : files.Nodup) (hrun : reconcile lib results d = Except.ok r) :
    (∀ f, Settled lib (buildUrlMap recs) d f →
      r.dir.content f = d.content f ∧ LogLine.updated f ∉ r.log) ∧
    (∀ f ∈ files, ∀ u c o, lookupUrl recs f = some u → d.content f = some c →
      lib.parse c = some (JsVal.obj o) → strictEqualsUrl (getProp o imageKey) u = false →
      r.dir.content f = some (lib.stringify (JsVal.obj (setProp o imageKey (JsVal.str u)))) ∧
      getProp (setProp o imageKey (JsVal.str u)) imageKey = some (JsVal.str u) ∧
      ∀ k, k ≠ imageKey → getProp (setProp o imageKey (JsVal.str u)) k = getProp o k) := by
  rw [reconcile_ok_loop lib results d recs files hsel hlist] at hrun
  constructor
  · intro f hs
    obtain ⟨h1, h2⟩ := reconcileLoop_settled_frame lib (buildUrlMap recs) f files _ r hrun hs
    exact ⟨h1, fun hmem => by simpa using h2 hmem⟩
  · intro f hf u c o hu hc hp hne
    refine ⟨?_, getProp_setProp_self o imageKey _,
      fun k hk => getProp_setProp_other o imageKey k _ (fun e => hk e.symm)⟩
    obtain ⟨sa, sb, hstep, hca, hcb⟩ :=
      reconcileLoop_visit lib (buildUrlMap recs) f files _ r hrun hnodup hf
    have hca2 : sa.dir.content f = some c := hca.trans hc
    rw [hcb]
    rcases reconcileFile_ok_cases lib _ sa sb f hstep with ⟨h0, _⟩ |
      ⟨u1, c1, v1, img1, hu1, hc1, hp1, hg1, h1⟩
    · unfold lookupUrl at hu
      rw [h0] at hu
      cases hu
    · unfold lookupUrl at hu
      have hu2 : u1 = u := Option.some.inj (hu1.symm.trans hu)
      have hc2 : c1 = c := Option.some.inj (hc1.symm.trans hca2)
      subst hu2
      subst hc2
      have hv : v1 = JsVal.obj o := Option.some.inj (hp1.symm.trans hp)
      subst hv
      have himg : img1 = getProp o imageKey := by
        simp only [getImage, Option.some.injEq] at hg1
        exact hg1.symm
      subst himg
      rcases h1 with ⟨heq, _⟩ | ⟨_, w, hset, _, h2⟩
      · rw [heq] at hne
        cases hne
      · simp only [setImage, Option.some.injEq] at hset
        rw [h2, ← hset]
        exact write_content_self sa.dir f _

/-- Records for `cat.jpg` and `dog.png`, entries `cat` (image `old`), `dog` (image
already `ar://dog`) and `notes` (no URL): `dog` and `notes` keep their content and
`cat` is rewritten with its URL. -/
theorem reconcile_frame_witness :
    (finalRun (reconcile miniJSON
      (Results.ofFiles
        [{ fileName := "cat.jpg".toList, url := "ar://abc".toList },
         { fileName := "dog.png".toList, url := "ar://dog".toList }])
      (MetaDir.ofEntries
        [("cat".toList, imagePrefix ++ "old".toList ++ imageSuffix),
         ("dog".toList, imagePrefix ++ "ar://dog".toList ++ imageSuffix),
         ("notes".toList, "to do".toList)]))).dir.content "notes".toList
      = some "to do".toList ∧
    (finalRun (reconcile miniJSON
      (Results.ofFiles
        [{ fileName := "cat.jpg".toList, url := "ar://abc".toList },
         { fileName := "dog.png".toList, url := "ar://dog".toList }])
      (MetaDir.ofEntries
        [("cat".toList, imagePrefix ++ "old".toList ++ imageSuffix),
         ("dog".toList, imagePrefix ++ "ar://dog".toList ++ imageSuffix),
         ("notes".toList, "to do".toList)]))).dir.content "cat".toList
      = some (imagePrefix ++ "ar://abc".toList ++ imageSuffix) := by
  have h := reconcile_frame miniJSON
    (Results.ofFiles
      [{ fileName := "cat.jpg".toList, url := "ar://abc".toList },
       { fileName := "dog.png".toList, url := "ar://dog".toList }])
    [{ fileName := "cat.jpg".toList, url := "ar://abc".toList },
     { fileName := "dog.png".toList, url := "ar://dog".toList }]
    (MetaDir.ofEntries
      [("cat".toList, imagePrefix ++ "old".toList ++ imageSuffix),
       ("dog".toList, imagePrefix ++ "ar://dog".toList ++ imageSuffix),
       ("notes".toList, "to do".toList)])
    ["cat".toList, "dog".toList, "notes".toList]
    (finalRun (reconcile miniJSON
      (Results.ofFiles
        [{ fileName := "cat.jpg".toList, url := "ar://abc".toList },
         { fileName := "dog.png".toList, url := "ar://dog".toList }])
      (MetaDir.ofEntries
        [("cat".toList, imagePrefix ++ "old".toList ++ imageSuffix),
         ("dog".toList, imagePrefix ++ "ar://dog".toList ++ imageSuffix),
         ("notes".toList, "to do".toList)])))
    rfl rfl (by decide) (completed_eq_ok _ (by decide))
  refine ⟨?_, ?_⟩
  · exact ((h.1 "notes".toList (Or.inl (by decide))).1).trans (by decide)
  · exact ((h.2 "cat".toList (by decide) "ar://abc".toList
      (imagePrefix ++ "old".toList ++ imageSuffix) [(imageKey, JsVal.str "old".toList)]
      (by decide) (by decide) rfl (by decide)).1).trans (by decide)

end ArweaveScripts
